import Mathlib

/-!
Verification of the w3up authorization query engine and its storage
collaborators.

The development shallowly embeds:
* the Datalog-style clause evaluator, fact index and domain matchers
  (the clause evaluator, projector, text/attestation/delegation matchers
  and the `Authorization.find` grouping are modelled from the spec, since
  only their callers live under `src/`);
* the query builder from `src/packages/w3up-client/src/authorization/query.js`;
* the delegation storage layer and account bookkeeping from the unnamed
  source files (`DbDelegationsStorageWithR2`, `Accounts`).
-/

namespace W3up

/-- Scalar values stored in facts: strings, integers (epoch seconds),
the distinguished "+infinity" expiration, delegation links and
capability entities.  A capability entity is identified by the cid of
its delegation together with the capability's position, matching the
projector's "fresh capability-entity per capability" requirement. -/
inductive Val where
  | str (s : String)
  | int (n : Int)
  | inf
  | del (cid : Nat)
  | cap (cid : Nat) (i : Nat)
deriving DecidableEq, Repr

/-- A term is either a bound constant or a logic variable named by id. -/
inductive Term where
  | var (id : Nat)
  | const (v : Val)
deriving DecidableEq, Repr

/-- Fact attributes.  The source projects facts with string attributes
`ucan/issuer`, `ucan/audience`, `ucan/expiration`, `ucan/capability`,
`ucan/proof`, `capability/can`, `capability/with` and
`capability/nb/<field>`; we embed them as a tagged type (the tags are in
bijection with those strings, `capNb` carrying the `<field>` part). -/
inductive Attr where
  | issuer
  | audience
  | expiration
  | capability
  | proof
  | capCan
  | capWith
  | capNb (field : String)
deriving DecidableEq, Repr

/-- A fact `(entity, attribute, value)`. -/
structure Fact where
  entity : Val
  attr : Attr
  value : Val
deriving DecidableEq, Repr

/-- Bindings: an association list from variable id to value.  A variable
is bound by the first entry naming it; entries are only ever added. -/
abbrev Bindings := List (Nat × Val)

/-- Look a variable up in a binding list. -/
def bfind : Bindings → Nat → Option Val
  | [], _ => none
  | (k, v) :: rest, x => if k = x then some v else bfind rest x

/-- Resolve a term under a binding: constants resolve to themselves,
variables to their bound value (if any). -/
def resolve (b : Bindings) : Term → Option Val
  | .const v => some v
  | .var x => bfind b x

/-- Unify a term with a concrete value: a constant must equal the value,
a bound variable must agree with its binding and an unbound variable is
bound.  Failure discards the candidate binding. -/
def unify (b : Bindings) (t : Term) (v : Val) : Option Bindings :=
  match t with
  | .const c => if c = v then some b else none
  | .var x =>
    match bfind b x with
    | some c => if c = v then some b else none
    | none => some ((x, v) :: b)

/-- Glob matching over character lists: `*` matches any run of
characters (tried as every possible suffix split), every other
character matches itself. -/
def globMatch : List Char → List Char → Bool
  | [], s => s.isEmpty
  | '*' :: ps, s => (List.range (s.length + 1)).any fun k => globMatch ps (s.drop k)
  | p :: ps, s =>
    match s with
    | [] => false
    | c :: cs => p == c && globMatch ps cs

/-- Glob matching on strings: does `s` match the pattern `p`? -/
def globStr (p s : String) : Bool :=
  globMatch p.toList s.toList

/-- Closed ≥ comparison on time-like values: "+infinity" never compares
less than any finite time, so non-expiring delegations always pass the
`expiration >= time` filter. -/
def valGte : Val → Val → Bool
  | .inf, _ => true
  | .int a, .int b => b ≤ a
  | _, _ => false

/-- Clause tree: fact match, conjunction, disjunction, negation, glob
text constraint, ≥ comparison, and direct unification of a term with a
constant (used by exact text constraints). -/
inductive Clause where
  | fact (e : Term) (a : Attr) (v : Term)
  | and (x y : Clause)
  | or (x y : Clause)
  | not (x : Clause)
  | glob (source : Term) (pattern : Term)
  | gte (x y : Term)
  | is (t : Term) (v : Val)
deriving DecidableEq, Repr

/-- Modelled from the spec: the clause evaluator of §4.4.  `matches`
extends the binding by unifying against every fact with the given
attribute; `and` threads bindings; `or` evaluates both branches on the
same starting binding and concatenates; `not` filters; `glob` and `gte`
test the currently bound values (an unbound operand yields no results);
`is` unifies a term with a constant. -/
def evalClause (idx : List Fact) : Clause → Bindings → List Bindings
  | .fact e a v, b =>
    idx.filterMap fun f =>
      if f.attr = a then
        match unify b e f.entity with
        | some b1 => unify b1 v f.value
        | none => none
      else none
  | .and x y, b => (evalClause idx x b).flatMap (evalClause idx y)
  | .or x y, b => evalClause idx x b ++ evalClause idx y b
  | .not x, b => if evalClause idx x b = [] then [b] else []
  | .glob s p, b =>
    match resolve b s, resolve b p with
    | some (.str sv), some (.str pv) => if globStr pv sv then [b] else []
    | _, _ => []
  | .gte x y, b =>
    match resolve b x, resolve b y with
    | some a, some c => if valGte a c then [b] else []
    | _, _ => []
  | .is t v, b =>
    match unify b t v with
    | some b1 => [b1]
    | none => []

/-- Evaluate a `where` list as a threaded conjunction, left to right. -/
def evalWhere (idx : List Fact) : List Clause → Bindings → List Bindings
  | [], b => [b]
  | c :: rest, b => (evalClause idx c b).flatMap (evalWhere idx rest)

/-- A capability `{can, with, nb}`; `cwith` embeds the `with` field and
`nb` is the list of caveat fields. -/
structure Capability where
  can : String
  cwith : String
  nb : List (String × Val)
deriving DecidableEq, Repr

/-- A delegation: content id, issuer and audience DIDs, capabilities,
expiration (`none` meaning "no expiration") and proof links. -/
structure Delegation where
  cid : Nat
  issuer : String
  audience : String
  capabilities : List Capability
  expiration : Option Int
  proofs : List Nat
deriving DecidableEq, Repr

/-- The value projected for an expiration: the epoch-second integer, or
"+infinity" when the delegation does not expire. -/
def expVal : Option Int → Val
  | some t => .int t
  | none => .inf

/-- Modelled from the spec: capability facts of the projector (§4.3).
Each capability at position `i` becomes a fresh capability entity
`cap cid i` with its `capability/can`, `capability/with` and
`capability/nb/<field>` facts plus the `(d, ucan/capability, k)` edge. -/
def capFacts (cid : Nat) : Nat → List Capability → List Fact
  | _, [] => []
  | i, c :: rest =>
    ⟨.cap cid i, .capCan, .str c.can⟩ ::
    ⟨.cap cid i, .capWith, .str c.cwith⟩ ::
    (c.nb.map fun kv => ⟨.cap cid i, .capNb kv.1, kv.2⟩) ++
    ⟨.del cid, .capability, .cap cid i⟩ ::
    capFacts cid (i + 1) rest

/-- Modelled from the spec: the delegation-to-fact projector (§4.3).
Emits issuer, audience, expiration, capability and proof-link facts. -/
def factsOf (d : Delegation) : List Fact :=
  ⟨.del d.cid, .issuer, .str d.issuer⟩ ::
  ⟨.del d.cid, .audience, .str d.audience⟩ ::
  ⟨.del d.cid, .expiration, expVal d.expiration⟩ ::
  capFacts d.cid 0 d.capabilities ++
  d.proofs.map fun p => ⟨.del d.cid, .proof, .del p⟩

/-- Modelled from the spec: the fact index built from a delegation set. -/
def buildIndex (ds : List Delegation) : List Fact :=
  ds.flatMap factsOf

/-! ### Domain matchers

`capabilityMatch` and `delegationMatch` embed `Capability.match` and
`Delegation.match` (modelled from the spec §4.5, since `src/agent/*` is
not part of the sources); `explicitM`, `implicitM` and `matchM` embed
`explicit`, `implicit` and `match` from
`src/packages/w3up-client/src/authorization/query.js`.  Fresh-variable
allocation is made explicit: each builder takes a `fresh` base id and
uses a documented number of consecutive ids from it. -/

/-- Modelled from the spec: capability match (§4.5) — the capability
entity's `can` and `with` unify with the requested ability and
resource. -/
def capabilityMatch (cap can subj : Term) : Clause :=
  .and (.fact cap .capCan can) (.fact cap .capWith subj)

/-- Modelled from the spec: delegation match (§4.5) — the delegation
carries the capability, and its audience, issuer and expiration match,
the expiration being ≥ the query time.  Uses 1 fresh variable
(`fresh`: the expiration). -/
def delegationMatch (d cap audience issuer time : Term) (fresh : Nat) : Clause :=
  .and (.fact d .capability cap)
    (.and (.fact d .audience audience)
      (.and (.fact d .issuer issuer)
        (.and (.fact d .expiration (.var fresh))
          (.gte (.var fresh) time))))

/-- `explicit` from `query.js`: a capability match where `with` is the
subject, conjoined with a delegation match.  Uses 2 fresh variables
(`fresh`: the capability entity; `fresh+1`: the expiration). -/
def explicitM (d audience issuer subject can time : Term) (fresh : Nat) : Clause :=
  .and (capabilityMatch (.var fresh) can subject)
    (delegationMatch d (.var fresh) audience issuer time (fresh + 1))

/-- Modelled from the spec: `Delegation.forwards` (§4.5) — the
delegation's capability has `with = "ucan:*"` and the requested ability,
with matching audience/issuer and unexpired at the query time.  Uses 2
fresh variables (`fresh`: capability entity; `fresh+1`: expiration). -/
def forwards (d issuer audience can time : Term) (fresh : Nat) : Clause :=
  .and (.fact d .capability (.var fresh))
    (.and (.fact (.var fresh) .capCan can)
      (.and (.fact (.var fresh) .capWith (.const (.str "ucan:*")))
        (.and (.fact d .audience audience)
          (.and (.fact d .issuer issuer)
            (.and (.fact d .expiration (.var (fresh + 1)))
              (.gte (.var (fresh + 1)) time))))))

/-- Modelled from the spec: `Delegation.issuedBy`. -/
def issuedBy (d subject : Term) : Clause :=
  .fact d .issuer subject

/-- Modelled from the spec: `Delegation.hasProof`. -/
def hasProof (d proof : Term) : Clause :=
  .fact d .proof proof

/-- `implicit` from `query.js`: a `ucan:*` delegation forwarding
authority, that is either issued by the subject or carries a proof that
explicitly delegates the ability from the subject to the issuer.  The
recursion is one level deep (the commented-out recursive case in the
source is absent).  Uses 6 fresh variables (`fresh`: the proof;
`fresh+1, fresh+2`: `forwards`; `fresh+3`: the inner explicit issuer;
`fresh+4, fresh+5`: the inner `explicitM`). -/
def implicitM (d audience issuer subject can time : Term) (fresh : Nat) : Clause :=
  .and (forwards d issuer audience can time (fresh + 1))
    (.or (issuedBy d subject)
      (.and (hasProof d (.var fresh))
        (explicitM (.var fresh) issuer (.var (fresh + 3)) subject can time (fresh + 4))))

/-- `match` from `query.js`: the union of the explicit and implicit
matches.  Uses 8 fresh variables (`fresh, fresh+1`: `explicitM`;
`fresh+2 .. fresh+7`: `implicitM`). -/
def matchM (d audience issuer subject can time : Term) (fresh : Nat) : Clause :=
  .or (explicitM d audience issuer subject can time fresh)
    (implicitM d audience issuer subject can time (fresh + 2))

/-- Modelled from the spec: `Attestation.match` (§4.5) — a delegation
whose capability is `ucan/attest`, whose `nb.proof` names the proof,
whose audience is the requester and which is unexpired.  Uses 2 fresh
variables (`fresh`: capability entity; `fresh+1`: expiration). -/
def attestationMatch (att proof audience time : Term) (fresh : Nat) : Clause :=
  .and (.fact att .capability (.var fresh))
    (.and (.fact (.var fresh) .capCan (.const (.str "ucan/attest")))
      (.and (.fact (.var fresh) (.capNb "proof") proof)
        (.and (.fact att .audience audience)
          (.and (.fact att .expiration (.var (fresh + 1)))
            (.gte (.var (fresh + 1)) time)))))

/-- Modelled from the spec: a text constraint is an exact string or a
glob pattern (§4.6's `TextConstraint`). -/
inductive TextConstraint where
  | exact (s : String)
  | like (pattern : String)
deriving DecidableEq, Repr

/-- Modelled from the spec: `Text.match` — an exact constraint unifies
the term with the string, a glob constraint matches its bound value
against the pattern. -/
def textMatch (t : Term) : TextConstraint → Clause
  | .exact s => .is t (.str s)
  | .like p => .glob t (.const (.str p))

/-! ### The query builder (`query` from `query.js`) -/

/-- The variable group generated per requested ability: the `need`
(absent when no abilities were requested) and the ids of the issuer,
can, proof and attestation variables plus the base of the group's
variable range. -/
structure ProofGroup where
  need : Option String
  issuer : Nat
  can : Nat
  proof : Nat
  attestation : Nat
  base : Nat
deriving DecidableEq, Repr

/-- Variable layout of the query: variable 0 is the subject, variable 1
the audience, and group `g` owns ids `2 + 14*g .. 2 + 14*g + 13`
(issuer, can, proof, attestation, then 8 ids for `matchM` and 2 for
`attestationMatch`). -/
def mkGroup (g : Nat) (need : Option String) : ProofGroup :=
  { need := need
    issuer := 2 + 14 * g
    can := 2 + 14 * g + 1
    proof := 2 + 14 * g + 2
    attestation := 2 + 14 * g + 3
    base := 2 + 14 * g }

/-- Groups for the requested abilities starting at group index `g`. -/
def mkGroupsFrom : Nat → List String → List ProofGroup
  | _, [] => []
  | g, n :: rest => mkGroup g (some n) :: mkGroupsFrom (g + 1) rest

/-- `query` builds one group per requested ability, or a single group
without `need` when no abilities were requested. -/
def mkGroups : List String → List ProofGroup
  | [] => [mkGroup 0 none]
  | n :: rest => mkGroupsFrom 0 (n :: rest)

/-- Uniform view of the generated groups: one group per `need` entry,
with consecutive group indices. -/
def mkGroupsAux : Nat → List (Option String) → List ProofGroup
  | _, [] => []
  | i, n :: rest => mkGroup i n :: mkGroupsAux (i + 1) rest

/-- The `need` entries of a selector's `can` list: the abilities mapped
through `some`, or the single unconstrained `none` slot. -/
def needsOf : List String → List (Option String)
  | [] => [none]
  | l => l.map some

/-- The selector of `query`: audience constraint, requested abilities
(the keys of the `can` mapping, in order), optional subject constraint
and the query time. -/
structure Selector where
  audience : TextConstraint
  can : List String
  subject : Option TextConstraint
  time : Int
deriving DecidableEq, Repr

/-- The clause generated for one proof group in `query`: the `match`
clause, conjoined with the requested-ability glob when `need` was
provided, conjoined with the attestation disjunction (either the proof's
issuer is not a `did:mailto:` principal, or a matching attestation
exists). -/
def groupClause (time : Int) (g : ProofGroup) : Clause :=
  let clause := matchM (.var g.proof) (.var 1) (.var g.issuer) (.var 0)
    (.var g.can) (.const (.int time)) (g.base + 4)
  let attestations : Clause :=
    .or (.not (.glob (.var g.issuer) (.const (.str "did:mailto:*"))))
      (attestationMatch (.var g.attestation) (.var g.proof) (.var 1)
        (.const (.int time)) (g.base + 12))
  .and
    (match g.need with
     | some need => .and clause (.glob (.const (.str need)) (.var g.can))
     | none => clause)
    attestations

/-- The `where` clauses of `query`: one clause per group, then the
subject pattern (defaulting to the glob `*`) and the audience
constraint. -/
def whereClauses (sel : Selector) (gs : List ProofGroup) : List Clause :=
  gs.map (groupClause sel.time) ++
  [textMatch (.var 0) (sel.subject.getD (.like "*")),
   textMatch (.var 1) sel.audience]

/-- An authorization record: requester, subject, granted abilities and
the cids of the cited proofs. -/
structure Authorization where
  authority : String
  subject : String
  can : List String
  proofs : List Nat
deriving DecidableEq, Repr

/-- The proof cids a group contributes to a result: its bound proof,
followed by its bound attestation when one was matched. -/
def groupProofs (b : Bindings) (g : ProofGroup) : List Nat :=
  (match bfind b g.proof with
   | some (.del c) => [c]
   | _ => []) ++
  (match bfind b g.attestation with
   | some (.del c) => [c]
   | _ => [])

/-- The ability a group contributes: its `need`, or the bound `can`
variable when no ability was requested. -/
def canOf (b : Bindings) (g : ProofGroup) : List String :=
  match g.need with
  | some n => [n]
  | none =>
    match bfind b g.can with
    | some (.str s) => [s]
    | _ => []

/-- Modelled from the spec: project one satisfying binding into an
Authorization record (§4.6) — the bound audience and subject, the union
of the groups' abilities, and the groups' proof/attestation cids. -/
def toAuth (gs : List ProofGroup) (b : Bindings) : Authorization :=
  { authority :=
      match bfind b 1 with
      | some (.str s) => s
      | _ => ""
    subject :=
      match bfind b 0 with
      | some (.str s) => s
      | _ => ""
    can := gs.flatMap (canOf b)
    proofs := gs.flatMap (groupProofs b) }

/-- Modelled from the spec: `Authorization.find` (§4.6) — run the query
built by `query` against the index and project each satisfying binding
into an Authorization record, duplicates removed by structural equality
in the grouping step. -/
def find (ds : List Delegation) (sel : Selector) : List Authorization :=
  let gs := mkGroups sel.can
  ((evalWhere (buildIndex ds) (whereClauses sel gs) []).map (toAuth gs)).dedup

/-! ### Delegation storage (`DbDelegationsStorageWithR2`)

Embeds the storage layer from the unnamed source file: the R2 DAG
bucket is a key/value map from string keys to CAR bytes, the relational
`delegations_v3` table is a list of rows, and the archive codec
(`delegationsToBytes` / `bytesToDelegations`, an external collaborator)
is passed in as a pair of functions. -/

/-- A thrown JavaScript error, as observed through its `name` and
`message` properties. -/
structure JsError where
  name : String
  message : String
deriving DecidableEq, Repr

/-- A `delegations_v3` row as produced by `createDelegationRowUpdateV3`. -/
structure DelegationRow where
  cid : Nat
  audience : String
  issuer : String
deriving DecidableEq, Repr

/-- `createDelegationRowUpdateV3`: project a delegation onto its row. -/
def createDelegationRowUpdateV3 (d : Delegation) : DelegationRow :=
  { cid := d.cid, audience := d.audience, issuer := d.issuer }

/-- CAR bytes. -/
abbrev Bytes := List Nat

/-- The R2 bucket: keys to stored byte values. -/
abbrev Bucket := List (String × Bytes)

/-- Read a key from the bucket (`dags.get`). -/
def bucketGet : Bucket → String → Option Bytes
  | [], _ => none
  | (k, v) :: rest, key => if k = key then some v else bucketGet rest key

/-- Write a key into the bucket (`bucket.put`), replacing any previous
value for the key. -/
def bucketPut (b : Bucket) (key : String) (v : Bytes) : Bucket :=
  match b with
  | [] => [(key, v)]
  | (k, w) :: rest => if k = key then (key, v) :: rest else (k, w) :: bucketPut rest key v

/-- `carFileKeyer`: the bucket key for a delegation cid. -/
def carFileKeyer (cid : String) : String :=
  cid ++ ".car"

/-- Render a delegation cid the way `d.cid.toV1().toString()` is used as
a string key: we keep cids as naturals and stringify. -/
def cidString (cid : Nat) : String :=
  toString cid

/-- The combined state of the delegation store: the DAG bucket and the
relational table. -/
structure StoreState where
  dags : Bucket
  table : List DelegationRow
deriving DecidableEq, Repr

/-- `writeDelegations`: write one CAR per delegation into the bucket,
keyed by `<cid>.car`, each CAR encoding the single delegation. -/
def writeDelegations (encode : List Delegation → Bytes) (b : Bucket) :
    List Delegation → Bucket
  | [] => b
  | d :: rest =>
    writeDelegations encode (bucketPut b (carFileKeyer (cidString d.cid)) (encode [d])) rest

/-- Insert rows with `onConflict (cid) doNothing`: a row whose cid is
already present is skipped. -/
def insertRows (table : List DelegationRow) : List DelegationRow → List DelegationRow
  | [] => table
  | r :: rest =>
    if (table.map DelegationRow.cid).contains r.cid then insertRows table rest
    else insertRows (table ++ [r]) rest

/-- `putMany`: an empty argument list returns immediately; otherwise the
delegation CARs are written to the bucket and the rows inserted into the
table. -/
def putMany (encode : List Delegation → Bytes) (st : StoreState)
    (delegations : List Delegation) : StoreState :=
  if delegations.length = 0 then st
  else
    { dags := writeDelegations encode st.dags delegations
      table := insertRows st.table (delegations.map createDelegationRowUpdateV3) }

/-- `#rowToDelegation`: read the CAR bytes for the row's cid from the
bucket, decode them, and require exactly one delegation; a missing key
or a decode of any other length throws a plain `Error`. -/
def rowToDelegation (dags : Bucket) (bytesToDelegations : Bytes → List Delegation)
    (cid : String) : Except JsError Delegation :=
  match bucketGet dags (carFileKeyer cid) with
  | none => .error ⟨"Error", "failed to read car bytes for cid " ++ cid⟩
  | some carBytes =>
    match bytesToDelegations carBytes with
    | [delegation] => .ok delegation
    | other =>
      .error ⟨"Error", "expected 1 delegation in CAR, but got " ++ toString other.length⟩

/-- A backing database for the streaming iterator: whether it can
stream, and the cids its `delegations_v3` selection yields. -/
structure StreamDB where
  canStream : Bool
  rows : List String
deriving DecidableEq, Repr

/-- The `[Symbol.asyncIterator]` path: if the backing database cannot
stream, throw an error named `NotImplementedError` before yielding
anything; otherwise map every selected row through `#rowToDelegation`
(the first row error aborting the iteration). -/
def streamAll (db : StreamDB) (dags : Bucket)
    (bytesToDelegations : Bytes → List Delegation) :
    Except JsError (List Delegation) :=
  if db.canStream then
    db.rows.mapM (rowToDelegation dags bytesToDelegations)
  else
    .error ⟨"NotImplementedError",
      "cannot create asyncIterator because the underlying database does not support streaming"⟩

/-! ### Accounts (`Accounts` from the unnamed source file)

The KV namespace maps an email key to the JSON-encoded list of encoded
delegations; `delegationToString` (an external collaborator) is passed
in as a function. -/

/-- The KV namespace: email keys to stored lists of encoded
delegations. -/
abbrev KV := List (String × List String)

/-- `kv.get(email, {type:'json'})`. -/
def kvGet : KV → String → Option (List String)
  | [], _ => none
  | (k, v) :: rest, key => if k = key then some v else kvGet rest key

/-- `kv.put(email, JSON.stringify(value))`, replacing any previous
value for the key. -/
def kvPut (kv : KV) (key : String) (v : List String) : KV :=
  match kv with
  | [] => [(key, v)]
  | (k, w) :: rest => if k = key then (key, v) :: rest else (k, w) :: kvPut rest key v

/-- `Accounts.saveDelegation`: read the stored list for the email; if
present, push the encoded delegation and write the list back, otherwise
write a fresh singleton list. -/
def saveDelegation (encode : Delegation → String) (kv : KV) (email : String)
    (delegation : Delegation) : KV :=
  match kvGet kv email with
  | some accs => kvPut kv email (accs ++ [encode delegation])
  | none => kvPut kv email [encode delegation]

/-- `Accounts.getDelegations`: the stored list for the email, or absent. -/
def getDelegations (kv : KV) (email : String) : Option (List String) :=
  kvGet kv email

/-- `Accounts.hasDelegations`. -/
def hasDelegations (kv : KV) (email : String) : Bool :=
  (kvGet kv email).isSome

/-! ### Auxiliary notions used by the statements and proofs -/

/-- The variable ids occurring in a term. -/
def termVars : Term → List Nat
  | .var x => [x]
  | .const _ => []

/-- The variable ids occurring in a clause; evaluation can only bind
variables in this list. -/
def clauseVars : Clause → List Nat
  | .fact e _ v => termVars e ++ termVars v
  | .and x y => clauseVars x ++ clauseVars y
  | .or x y => clauseVars x ++ clauseVars y
  | .not x => clauseVars x
  | .glob s p => termVars s ++ termVars p
  | .gte x y => termVars x ++ termVars y
  | .is t _ => termVars t

/-- A delegation set in which the content id determines the delegation
(content-addressing). -/
def UniqueCids (ds : List Delegation) : Prop :=
  ∀ d1 ∈ ds, ∀ d2 ∈ ds, d1.cid = d2.cid → d1 = d2

instance : DecidablePred UniqueCids := fun ds =>
  inferInstanceAs (Decidable (∀ d1 ∈ ds, ∀ d2 ∈ ds, d1.cid = d2.cid → d1 = d2))

/-- A delegation is unexpired at `t` when its projected expiration
passes the closed `expiration >= time` filter. -/
def unexpired (d : Delegation) (t : Int) : Bool :=
  valGte (expVal d.expiration) (.int t)

/-- Does the delegation's issuer DID match the glob `did:mailto:*`? -/
def mailtoIssuer (d : Delegation) : Bool :=
  globStr "did:mailto:*" d.issuer

/-- `a` is a matching attestation for the proof cid `pcid` requested by
`authority` at time `t`: audience equal to the requester, unexpired,
with a `ucan/attest` capability whose `nb.proof` names the proof. -/
def attestsFor (a : Delegation) (pcid : Nat) (authority : String) (t : Int) : Prop :=
  a.audience = authority ∧ unexpired a t = true ∧
  ∃ (j : Nat) (c : Capability), a.capabilities[j]? = some c ∧ c.can = "ucan/attest" ∧
    ("proof", Val.del pcid) ∈ c.nb

instance (a : Delegation) (pcid : Nat) (authority : String) (t : Int) :
    Decidable (attestsFor a pcid authority t) :=
  decidable_of_iff
    (a.audience = authority ∧ unexpired a t = true ∧
      ∃ c ∈ a.capabilities, c.can = "ucan/attest" ∧ ("proof", Val.del pcid) ∈ c.nb)
    (by
      constructor
      · rintro ⟨h1, h2, c, hc, hp⟩
        obtain ⟨k, hlt, hv⟩ := List.getElem_of_mem hc
        exact ⟨h1, h2, k, c, List.getElem?_eq_some_iff.mpr ⟨hlt, hv⟩, hp⟩
      · rintro ⟨h1, h2, k, c, hk, hp⟩
        obtain ⟨hlt, hv⟩ := List.getElem?_eq_some_iff.mp hk
        exact ⟨h1, h2, c, hv ▸ List.getElem_mem hlt, hp⟩)

/-- Extend a binding at a variable, keeping the binding unchanged when
the variable is already bound (the shape `unify` produces on success at
a variable). -/
def extend (b : Bindings) (x : Nat) (v : Val) : Bindings :=
  match bfind b x with
  | some _ => b
  | none => (x, v) :: b

/-- The facts the projector emits for the capability `c` of delegation
`cid` at position `k`. -/
def capFactAt (cid k : Nat) (c : Capability) (f : Fact) : Prop :=
  f = ⟨.cap cid k, .capCan, .str c.can⟩ ∨
  f = ⟨.cap cid k, .capWith, .str c.cwith⟩ ∨
  (∃ kv ∈ c.nb, f = ⟨.cap cid k, .capNb kv.1, kv.2⟩) ∨
  f = ⟨.del cid, .capability, .cap cid k⟩

/-- `b'` extends `b`: every binding of `b` is a binding of `b'`. -/
def Ext (b b' : Bindings) : Prop :=
  ∀ x w, bfind b x = some w → bfind b' x = some w

/-- What a satisfied explicit match guarantees: some delegation of the
set carries a capability whose ability, resource, audience, issuer are
the resolved values of the corresponding terms, and which is unexpired. -/
def explicitPkg (ds : List Delegation) (b : Bindings)
    (dT audT issT subjT canT : Term) (tv : Val) : Prop :=
  ∃ d ∈ ds, ∃ (j : Nat) (c : Capability), d.capabilities[j]? = some c ∧
    resolve b dT = some (.del d.cid) ∧
    resolve b canT = some (.str c.can) ∧
    resolve b subjT = some (.str c.cwith) ∧
    resolve b audT = some (.str d.audience) ∧
    resolve b issT = some (.str d.issuer) ∧
    valGte (expVal d.expiration) tv = true

/-- What the inner explicit proof of an implicit match guarantees: a
delegation of the set, linked as a proof of `d`, whose audience is `d`'s
issuer, unexpired, carrying a capability with the resolved ability and
whose resource is the resolved subject. -/
def innerExplicitPkg (ds : List Delegation) (b : Bindings) (d : Delegation)
    (subjT canT : Term) (tv : Val) : Prop :=
  ∃ p ∈ ds, p.cid ∈ d.proofs ∧ p.audience = d.issuer ∧
    ∃ (j : Nat) (c : Capability), p.capabilities[j]? = some c ∧
      resolve b canT = some (.str c.can) ∧
      resolve b subjT = some (.str c.cwith) ∧
      valGte (expVal p.expiration) tv = true

/-- What a satisfied implicit match guarantees: a `ucan:*` delegation of
the set with matching audience/issuer/ability, unexpired, and either
issued by the resolved subject or carrying an explicit inner proof. -/
def implicitPkg (ds : List Delegation) (b : Bindings)
    (dT audT issT subjT canT : Term) (tv : Val) : Prop :=
  ∃ d ∈ ds, (∃ (j : Nat) (c : Capability), d.capabilities[j]? = some c ∧ c.cwith = "ucan:*" ∧
      resolve b canT = some (.str c.can)) ∧
    resolve b dT = some (.del d.cid) ∧
    resolve b audT = some (.str d.audience) ∧
    resolve b issT = some (.str d.issuer) ∧
    valGte (expVal d.expiration) tv = true ∧
    (resolve b subjT = some (.str d.issuer) ∨ innerExplicitPkg ds b d subjT canT tv)

/-- What a satisfied `match` guarantees: its explicit or implicit
disjunct's package. -/
def matchPkg (ds : List Delegation) (b : Bindings)
    (dT audT issT subjT canT : Term) (tv : Val) : Prop :=
  explicitPkg ds b dT audT issT subjT canT tv ∨
  implicitPkg ds b dT audT issT subjT canT tv

/-- What a satisfied attestation match guarantees: a delegation of the
set bound to the attestation term, whose audience is the resolved
audience, unexpired, with a `ucan/attest` capability whose `nb.proof` is
the resolved proof value. -/
def attestPkg (ds : List Delegation) (b : Bindings)
    (attT proofT audT : Term) (tv : Val) : Prop :=
  ∃ a ∈ ds, resolve b attT = some (.del a.cid) ∧
    resolve b audT = some (.str a.audience) ∧
    valGte (expVal a.expiration) tv = true ∧
    ∃ (j : Nat) (c : Capability), a.capabilities[j]? = some c ∧ c.can = "ucan/attest" ∧
      ∃ pv, resolve b proofT = some pv ∧ ("proof", pv) ∈ c.nb

/-- What one satisfied proof group guarantees about a binding: the bound
proof delegation with its issuer/audience, unexpired, its ability glob
obligation, and either no attestation with a non-mailto issuer, or a
matching attestation. -/
def groupOut (ds : List Delegation) (t : Int) (g : ProofGroup) (bf : Bindings) : Prop :=
  ∃ pd ∈ ds, bfind bf g.proof = some (.del pd.cid) ∧
    bfind bf g.issuer = some (.str pd.issuer) ∧
    bfind bf 1 = some (.str pd.audience) ∧
    unexpired pd t = true ∧
    (∃ (j : Nat) (cc : Capability), pd.capabilities[j]? = some cc ∧
      bfind bf g.can = some (.str cc.can) ∧
      (∀ nd, g.need = some nd → globStr cc.can nd = true) ∧
      (bfind bf 0 = some (.str cc.cwith) ∨ cc.cwith = "ucan:*")) ∧
    ((bfind bf g.attestation = none ∧ mailtoIssuer pd = false) ∨
     (∃ ad ∈ ds, bfind bf g.attestation = some (.del ad.cid) ∧
        ad.audience = pd.audience ∧ unexpired ad t = true ∧
        ∃ (j : Nat) (c : Capability), ad.capabilities[j]? = some c ∧ c.can = "ucan/attest" ∧
          ("proof", Val.del pd.cid) ∈ c.nb))

/-! ### Concrete fixtures used by counterexamples and witnesses -/

/-- A direct `store/add` grant on a space, issued by a mailto account. -/
def mailtoGrant : Delegation :=
  ⟨31, "did:mailto:example.com:eve", "did:key:agent",
    [⟨"store/add", "did:key:space", []⟩], none, []⟩

/-- A direct `store/add` grant on a space from a key issuer. -/
def plainGrant : Delegation :=
  ⟨1, "did:key:space", "did:key:agent",
    [⟨"store/add", "did:key:space", []⟩], none, []⟩

/-- A direct `store/remove` grant on the same space and audience. -/
def removeGrant : Delegation :=
  ⟨2, "did:key:space", "did:key:agent",
    [⟨"store/remove", "did:key:space", []⟩], none, []⟩

/-- A direct `store/*` grant on the same space and audience. -/
def starGrant : Delegation :=
  ⟨10, "did:key:space", "did:key:agent",
    [⟨"store/*", "did:key:space", []⟩], none, []⟩

/-- A mailto-issued proof whose attestation is itself mailto-issued. -/
def mailtoProof : Delegation :=
  ⟨12, "did:mailto:example.com:alice", "did:key:agent",
    [⟨"store/add", "did:key:space", []⟩], none, []⟩

/-- An attestation for `mailtoProof` issued by a mailto principal. -/
def mailtoAttestation : Delegation :=
  ⟨13, "did:mailto:example.com:eve", "did:key:agent",
    [⟨"ucan/attest", "did:web:w3", [("proof", .del 12)]⟩], none, []⟩

/-- A selector asking for `store/add` for the agent at time 0. -/
def agentSelector : Selector :=
  ⟨.exact "did:key:agent", ["store/add"], none, 0⟩

/-- A mailto account's `ucan:*` login delegation to the agent. -/
def loginDelegation : Delegation :=
  ⟨3, "did:mailto:example.com:alice", "did:key:agent",
    [⟨"*", "ucan:*", []⟩], none, []⟩

/-- An implicit (`ucan:*`) delegation whose only proof is itself
implicit. -/
def chainFwd : Delegation :=
  ⟨21, "did:key:eve", "did:key:agent", [⟨"a", "ucan:*", []⟩], none, [22]⟩

/-- The implicit root of `chainFwd`'s chain. -/
def chainRoot : Delegation :=
  ⟨22, "did:key:space", "did:key:eve", [⟨"a", "ucan:*", []⟩], none, []⟩

/-- A one-entry DAG bucket whose CAR decodes to two delegations. -/
def carBucket : Bucket := [("1.car", [0])]

/-- A decoder that always yields two delegations. -/
def twoDecode : Bytes → List Delegation := fun _ => [plainGrant, plainGrant]

/-! ## Basic lemmas on bindings and unification -/

theorem unify_const {b : Bindings} {c v : Val} :
    unify b (.const c) v = if c = v then some b else none := rfl

theorem unify_var {b : Bindings} {x : Nat} {v : Val} :
    unify b (.var x) v =
      (match bfind b x with
       | some c => if c = v then some b else none
       | none => some ((x, v) :: b)) := rfl

theorem unify_mono {b b' : Bindings} {t : Term} {v : Val}
    (h : unify b t v = some b') {x : Nat} {w : Val} (hx : bfind b x = some w) :
    bfind b' x = some w := by
  cases t with
  | const c =>
    rw [unify_const] at h
    split at h
    · injection h with h; subst h; exact hx
    · exact Option.noConfusion h
  | var y =>
    rw [unify_var] at h
    split at h
    · split at h
      · injection h with h; subst h; exact hx
      · exact Option.noConfusion h
    · rename_i hy
      injection h with h
      subst h
      have hxy : y ≠ x := fun he => by rw [he, hx] at hy; exact Option.noConfusion hy
      simpa [bfind, hxy] using hx

theorem unify_resolve {b b' : Bindings} {t : Term} {v : Val}
    (h : unify b t v = some b') : resolve b' t = some v := by
  cases t with
  | const c =>
    rw [unify_const] at h
    split at h
    · rename_i hc; subst hc; rfl
    · exact Option.noConfusion h
  | var y =>
    rw [unify_var] at h
    split at h
    · rename_i c hy
      split at h
      · rename_i hc
        subst hc
        injection h with h
        subst h
        exact hy
      · exact Option.noConfusion h
    · injection h with h
      subst h
      simp [resolve, bfind]

theorem unify_untouched {b b' : Bindings} {t : Term} {v : Val}
    (h : unify b t v = some b') {x : Nat} (hx : x ∉ termVars t) :
    bfind b' x = bfind b x := by
  cases t with
  | const c =>
    rw [unify_const] at h
    split at h
    · injection h with h; subst h; rfl
    · exact Option.noConfusion h
  | var y =>
    have hxy : y ≠ x := by
      intro he; exact hx (by simp [termVars, he])
    rw [unify_var] at h
    split at h
    · split at h
      · injection h with h; subst h; rfl
      · exact Option.noConfusion h
    · injection h with h
      subst h
      simp [bfind, hxy]

theorem resolve_mono {b b' : Bindings} {t : Term} {v : Val}
    (hmono : ∀ x w, bfind b x = some w → bfind b' x = some w)
    (h : resolve b t = some v) : resolve b' t = some v := by
  cases t with
  | const c => simpa [resolve] using h
  | var y => exact hmono y v h

theorem unify_extend {b : Bindings} {x : Nat} {v : Val}
    (h : bfind b x = none ∨ bfind b x = some v) :
    unify b (.var x) v = some (extend b x v) := by
  rcases h with h | h <;> simp [unify_var, extend, h]

theorem bfind_extend_self {b : Bindings} {x : Nat} {v : Val}
    (h : bfind b x = none ∨ bfind b x = some v) :
    bfind (extend b x v) x = some v := by
  rcases h with h | h <;> simp [extend, h, bfind]

theorem bfind_extend_other {b : Bindings} {x y : Nat} {v : Val} (h : y ≠ x) :
    bfind (extend b x v) y = bfind b y := by
  unfold extend
  cases hx : bfind b x with
  | some c => rfl
  | none => simp [bfind, Ne.symm h]

/-! ## Evaluator equations and membership characterizations -/

theorem evalClause_fact {idx : List Fact} {e : Term} {a : Attr} {v : Term}
    {b : Bindings} :
    evalClause idx (.fact e a v) b =
      idx.filterMap (fun f =>
        if f.attr = a then
          match unify b e f.entity with
          | some b1 => unify b1 v f.value
          | none => none
        else none) := rfl

theorem evalClause_and {idx : List Fact} {x y : Clause} {b : Bindings} :
    evalClause idx (.and x y) b =
      (evalClause idx x b).flatMap (evalClause idx y) := rfl

theorem evalClause_or {idx : List Fact} {x y : Clause} {b : Bindings} :
    evalClause idx (.or x y) b =
      evalClause idx x b ++ evalClause idx y b := rfl

theorem evalClause_not {idx : List Fact} {x : Clause} {b : Bindings} :
    evalClause idx (.not x) b =
      if evalClause idx x b = [] then [b] else [] := rfl

theorem evalClause_glob {idx : List Fact} {s p : Term} {b : Bindings} :
    evalClause idx (.glob s p) b =
      (match resolve b s, resolve b p with
       | some (.str sv), some (.str pv) => if globStr pv sv then [b] else []
       | _, _ => []) := rfl

theorem evalClause_gte {idx : List Fact} {x y : Term} {b : Bindings} :
    evalClause idx (.gte x y) b =
      (match resolve b x, resolve b y with
       | some a, some c => if valGte a c then [b] else []
       | _, _ => []) := rfl

theorem evalClause_is {idx : List Fact} {t : Term} {v : Val} {b : Bindings} :
    evalClause idx (.is t v) b =
      (match unify b t v with
       | some b1 => [b1]
       | none => []) := rfl

theorem mem_eval_and {idx : List Fact} {x y : Clause} {b b' : Bindings} :
    b' ∈ evalClause idx (.and x y) b ↔
      ∃ bm ∈ evalClause idx x b, b' ∈ evalClause idx y bm := by
  rw [evalClause_and]
  simp [List.mem_flatMap]

theorem mem_eval_or {idx : List Fact} {x y : Clause} {b b' : Bindings} :
    b' ∈ evalClause idx (.or x y) b ↔
      b' ∈ evalClause idx x b ∨ b' ∈ evalClause idx y b := by
  rw [evalClause_or]
  simp

theorem mem_eval_fact {idx : List Fact} {e : Term} {a : Attr} {v : Term}
    {b b' : Bindings} :
    b' ∈ evalClause idx (.fact e a v) b ↔
      ∃ f ∈ idx, f.attr = a ∧ ∃ b1, unify b e f.entity = some b1 ∧
        unify b1 v f.value = some b' := by
  rw [evalClause_fact, List.mem_filterMap]
  constructor
  · rintro ⟨f, hf, hsome⟩
    by_cases ha : f.attr = a
    · rw [if_pos ha] at hsome
      cases h1 : unify b e f.entity with
      | none => rw [h1] at hsome; exact Option.noConfusion hsome
      | some b1 =>
        rw [h1] at hsome
        exact ⟨f, hf, ha, b1, h1, hsome⟩
    · rw [if_neg ha] at hsome; exact Option.noConfusion hsome
  · rintro ⟨f, hf, ha, b1, h1, h2⟩
    refine ⟨f, hf, ?_⟩
    rw [if_pos ha, h1]
    exact h2

theorem mem_eval_not {idx : List Fact} {x : Clause} {b b' : Bindings} :
    b' ∈ evalClause idx (.not x) b ↔ b' = b ∧ evalClause idx x b = [] := by
  rw [evalClause_not]
  by_cases h : evalClause idx x b = [] <;> simp [h]

theorem mem_eval_glob {idx : List Fact} {s p : Term} {b b' : Bindings} :
    b' ∈ evalClause idx (.glob s p) b ↔
      b' = b ∧ ∃ sv pv, resolve b s = some (.str sv) ∧
        resolve b p = some (.str pv) ∧ globStr pv sv = true := by
  rw [evalClause_glob]
  constructor
  · intro h
    split at h
    · rename_i sv pv hs hp
      split at h
      · rename_i hg
        simp only [List.mem_singleton] at h
        exact ⟨h, sv, pv, hs, hp, hg⟩
      · simp at h
    · simp at h
  · rintro ⟨rfl, sv, pv, hs, hp, hg⟩
    rw [hs, hp]
    simp [hg]

theorem mem_eval_gte {idx : List Fact} {x y : Term} {b b' : Bindings} :
    b' ∈ evalClause idx (.gte x y) b ↔
      b' = b ∧ ∃ a c, resolve b x = some a ∧ resolve b y = some c ∧
        valGte a c = true := by
  rw [evalClause_gte]
  constructor
  · intro h
    split at h
    · rename_i a c hx hy
      split at h
      · rename_i hg
        simp only [List.mem_singleton] at h
        exact ⟨h, a, c, hx, hy, hg⟩
      · simp at h
    · simp at h
  · rintro ⟨rfl, a, c, hx, hy, hg⟩
    rw [hx, hy]
    simp [hg]

theorem mem_eval_is {idx : List Fact} {t : Term} {v : Val} {b b' : Bindings} :
    b' ∈ evalClause idx (.is t v) b ↔ unify b t v = some b' := by
  rw [evalClause_is]
  cases h : unify b t v with
  | none =>
    simp only [List.not_mem_nil, false_iff]
    intro he
    exact Option.noConfusion he
  | some b1 =>
    simp only [List.mem_singleton]
    constructor
    · intro he; subst he; rfl
    · intro he; injection he with he; exact he.symm

theorem mem_evalWhere_cons {idx : List Fact} {c : Clause} {rest : List Clause}
    {b b' : Bindings} :
    b' ∈ evalWhere idx (c :: rest) b ↔
      ∃ bm ∈ evalClause idx c b, b' ∈ evalWhere idx rest bm := by
  simp [evalWhere, List.mem_flatMap]

theorem mem_evalWhere_nil {idx : List Fact} {b b' : Bindings} :
    b' ∈ evalWhere idx [] b ↔ b' = b := by
  simp [evalWhere]

/-- Evaluation only ever adds bindings: whatever `b` binds, any result
binding binds to the same value. -/
theorem eval_mono {idx : List Fact} {c : Clause} {b b' : Bindings}
    (h : b' ∈ evalClause idx c b) {x : Nat} {w : Val} (hx : bfind b x = some w) :
    bfind b' x = some w := by
  induction c generalizing b b' with
  | fact e a v =>
    obtain ⟨f, _, _, b1, h1, h2⟩ := mem_eval_fact.mp h
    exact unify_mono h2 (unify_mono h1 hx)
  | and p q ihp ihq =>
    obtain ⟨bm, hm, hb⟩ := mem_eval_and.mp h
    exact ihq hb (ihp hm hx)
  | or p q ihp ihq =>
    rcases mem_eval_or.mp h with h' | h'
    · exact ihp h' hx
    · exact ihq h' hx
  | not p ih =>
    obtain ⟨he, _⟩ := mem_eval_not.mp h
    subst he; exact hx
  | glob s p =>
    obtain ⟨he, _⟩ := mem_eval_glob.mp h
    subst he; exact hx
  | gte a c =>
    obtain ⟨he, _⟩ := mem_eval_gte.mp h
    subst he; exact hx
  | is t v =>
    exact unify_mono (mem_eval_is.mp h) hx

/-- Evaluation binds only variables occurring in the clause: any other
variable keeps its (possibly absent) binding. -/
theorem eval_untouched {idx : List Fact} {c : Clause} {b b' : Bindings}
    (h : b' ∈ evalClause idx c b) {x : Nat} (hx : x ∉ clauseVars c) :
    bfind b' x = bfind b x := by
  induction c generalizing b b' with
  | fact e a v =>
    obtain ⟨f, _, _, b1, h1, h2⟩ := mem_eval_fact.mp h
    have hxe : x ∉ termVars e := fun hm => hx (by simp [clauseVars, hm])
    have hxv : x ∉ termVars v := fun hm => hx (by simp [clauseVars, hm])
    rw [unify_untouched h2 hxv, unify_untouched h1 hxe]
  | and p q ihp ihq =>
    obtain ⟨bm, hm, hb⟩ := mem_eval_and.mp h
    have hxp : x ∉ clauseVars p := fun hm' => hx (by simp [clauseVars, hm'])
    have hxq : x ∉ clauseVars q := fun hm' => hx (by simp [clauseVars, hm'])
    rw [ihq hb hxq, ihp hm hxp]
  | or p q ihp ihq =>
    have hxp : x ∉ clauseVars p := fun hm' => hx (by simp [clauseVars, hm'])
    have hxq : x ∉ clauseVars q := fun hm' => hx (by simp [clauseVars, hm'])
    rcases mem_eval_or.mp h with h' | h'
    · exact ihp h' hxp
    · exact ihq h' hxq
  | not p ih =>
    obtain ⟨he, _⟩ := mem_eval_not.mp h
    subst he; rfl
  | glob s p =>
    obtain ⟨he, _⟩ := mem_eval_glob.mp h
    subst he; rfl
  | gte a c =>
    obtain ⟨he, _⟩ := mem_eval_gte.mp h
    subst he; rfl
  | is t v =>
    exact unify_untouched (mem_eval_is.mp h) fun hm => hx (by simp [clauseVars, hm])

/-! ## Index structure: inversion and membership lemmas -/

theorem mem_buildIndex {ds : List Delegation} {f : Fact} :
    f ∈ buildIndex ds ↔ ∃ d ∈ ds, f ∈ factsOf d := by
  simp [buildIndex, List.mem_flatMap]


theorem mem_capFacts {cid : Nat} {caps : List Capability} {i : Nat} {f : Fact} :
    f ∈ capFacts cid i caps ↔
      ∃ j c, caps[j]? = some c ∧ capFactAt cid (i + j) c f := by
  induction caps generalizing i with
  | nil => simp [capFacts]
  | cons c rest ih =>
    have hunf : capFacts cid i (c :: rest) =
        (⟨.cap cid i, .capCan, .str c.can⟩ ::
         ⟨.cap cid i, .capWith, .str c.cwith⟩ ::
         c.nb.map (fun kv => ⟨.cap cid i, .capNb kv.1, kv.2⟩)) ++
        (⟨.del cid, .capability, .cap cid i⟩ :: capFacts cid (i + 1) rest) := rfl
    rw [hunf, List.mem_append, List.mem_cons, List.mem_cons, List.mem_map, List.mem_cons, ih]
    constructor
    · rintro ((rfl | rfl | ⟨kv, hkv, rfl⟩) | (rfl | ⟨j, c', hj, hf⟩))
      · exact ⟨0, c, by simp, by rw [Nat.add_zero]; exact Or.inl rfl⟩
      · exact ⟨0, c, by simp, by rw [Nat.add_zero]; exact Or.inr (Or.inl rfl)⟩
      · exact ⟨0, c, by simp,
          by rw [Nat.add_zero]; exact Or.inr (Or.inr (Or.inl ⟨kv, hkv, rfl⟩))⟩
      · exact ⟨0, c, by simp, by rw [Nat.add_zero]; exact Or.inr (Or.inr (Or.inr rfl))⟩
      · refine ⟨j + 1, c', by simpa using hj, ?_⟩
        have harith : i + (j + 1) = i + 1 + j := by omega
        rw [harith]
        exact hf
    · rintro ⟨j, c', hj, hf⟩
      cases j with
      | zero =>
        simp only [List.getElem?_cons_zero, Option.some.injEq] at hj
        subst hj
        rw [Nat.add_zero] at hf
        rcases hf with rfl | rfl | ⟨kv, hkv, rfl⟩ | rfl
        · exact Or.inl (Or.inl rfl)
        · exact Or.inl (Or.inr (Or.inl rfl))
        · exact Or.inl (Or.inr (Or.inr ⟨kv, hkv, rfl⟩))
        · exact Or.inr (Or.inl rfl)
      | succ j' =>
        simp only [List.getElem?_cons_succ] at hj
        refine Or.inr (Or.inr ⟨j', c', hj, ?_⟩)
        have harith : i + 1 + j' = i + (j' + 1) := by omega
        rw [harith]
        exact hf

theorem mem_factsOf {d : Delegation} {f : Fact} :
    f ∈ factsOf d ↔
      f = ⟨.del d.cid, .issuer, .str d.issuer⟩ ∨
      f = ⟨.del d.cid, .audience, .str d.audience⟩ ∨
      f = ⟨.del d.cid, .expiration, expVal d.expiration⟩ ∨
      (∃ j c, d.capabilities[j]? = some c ∧ capFactAt d.cid j c f) ∨
      (∃ p ∈ d.proofs, f = ⟨.del d.cid, .proof, .del p⟩) := by
  have hunf : factsOf d =
      ⟨.del d.cid, .issuer, .str d.issuer⟩ ::
      ⟨.del d.cid, .audience, .str d.audience⟩ ::
      ⟨.del d.cid, .expiration, expVal d.expiration⟩ ::
      (capFacts d.cid 0 d.capabilities ++
       d.proofs.map fun p => ⟨.del d.cid, .proof, .del p⟩) := rfl
  rw [hunf, List.mem_cons, List.mem_cons, List.mem_cons, List.mem_append, List.mem_map,
    mem_capFacts]
  constructor
  · rintro (rfl | rfl | rfl | (⟨j, c, hj, hf⟩ | ⟨p, hp, rfl⟩))
    · exact Or.inl rfl
    · exact Or.inr (Or.inl rfl)
    · exact Or.inr (Or.inr (Or.inl rfl))
    · exact Or.inr (Or.inr (Or.inr (Or.inl ⟨j, c, hj, by simpa using hf⟩)))
    · exact Or.inr (Or.inr (Or.inr (Or.inr ⟨p, hp, rfl⟩)))
  · rintro (rfl | rfl | rfl | ⟨j, c, hj, hf⟩ | ⟨p, hp, rfl⟩)
    · exact Or.inl rfl
    · exact Or.inr (Or.inl rfl)
    · exact Or.inr (Or.inr (Or.inl rfl))
    · exact Or.inr (Or.inr (Or.inr (Or.inl ⟨j, c, hj, by simpa using hf⟩)))
    · exact Or.inr (Or.inr (Or.inr (Or.inr ⟨p, hp, rfl⟩)))

theorem index_issuer {ds : List Delegation} {e v : Val}
    (h : (⟨e, .issuer, v⟩ : Fact) ∈ buildIndex ds) :
    ∃ d ∈ ds, e = .del d.cid ∧ v = .str d.issuer := by
  obtain ⟨d, hd, hf⟩ := mem_buildIndex.mp h
  rcases mem_factsOf.mp hf with hf | hf | hf | ⟨j, c, hj, hf | hf | ⟨kv, hkv, hf⟩ | hf⟩ |
    ⟨p, hp, hf⟩ <;> simp only [Fact.mk.injEq] at hf
  · exact ⟨d, hd, hf.1, hf.2.2⟩
  all_goals simp at hf

theorem index_audience {ds : List Delegation} {e v : Val}
    (h : (⟨e, .audience, v⟩ : Fact) ∈ buildIndex ds) :
    ∃ d ∈ ds, e = .del d.cid ∧ v = .str d.audience := by
  obtain ⟨d, hd, hf⟩ := mem_buildIndex.mp h
  rcases mem_factsOf.mp hf with hf | hf | hf | ⟨j, c, hj, hf | hf | ⟨kv, hkv, hf⟩ | hf⟩ |
    ⟨p, hp, hf⟩ <;> simp only [Fact.mk.injEq] at hf
  case intro.intro.inr.inl => exact ⟨d, hd, hf.1, hf.2.2⟩
  all_goals simp at hf

theorem index_expiration {ds : List Delegation} {e v : Val}
    (h : (⟨e, .expiration, v⟩ : Fact) ∈ buildIndex ds) :
    ∃ d ∈ ds, e = .del d.cid ∧ v = expVal d.expiration := by
  obtain ⟨d, hd, hf⟩ := mem_buildIndex.mp h
  rcases mem_factsOf.mp hf with hf | hf | hf | ⟨j, c, hj, hf | hf | ⟨kv, hkv, hf⟩ | hf⟩ |
    ⟨p, hp, hf⟩ <;> simp only [Fact.mk.injEq] at hf
  case intro.intro.inr.inr.inl => exact ⟨d, hd, hf.1, hf.2.2⟩
  all_goals simp at hf

theorem index_capability {ds : List Delegation} {e v : Val}
    (h : (⟨e, .capability, v⟩ : Fact) ∈ buildIndex ds) :
    ∃ d ∈ ds, e = .del d.cid ∧ ∃ j c, d.capabilities[j]? = some c ∧ v = .cap d.cid j := by
  obtain ⟨d, hd, hf⟩ := mem_buildIndex.mp h
  rcases mem_factsOf.mp hf with hf | hf | hf | ⟨j, c, hj, hf | hf | ⟨kv, hkv, hf⟩ | hf⟩ |
    ⟨p, hp, hf⟩ <;> simp only [Fact.mk.injEq] at hf
  case intro.intro.inr.inr.inr.inl.intro.intro.intro.inr.inr.inr => exact ⟨d, hd, hf.1, j, c, hj, hf.2.2⟩
  all_goals simp at hf

theorem index_capCan {ds : List Delegation} {e v : Val}
    (h : (⟨e, .capCan, v⟩ : Fact) ∈ buildIndex ds) :
    ∃ d ∈ ds, ∃ j c, d.capabilities[j]? = some c ∧ e = .cap d.cid j ∧ v = .str c.can := by
  obtain ⟨d, hd, hf⟩ := mem_buildIndex.mp h
  rcases mem_factsOf.mp hf with hf | hf | hf | ⟨j, c, hj, hf | hf | ⟨kv, hkv, hf⟩ | hf⟩ |
    ⟨p, hp, hf⟩ <;> simp only [Fact.mk.injEq] at hf
  case intro.intro.inr.inr.inr.inl.intro.intro.intro.inl => exact ⟨d, hd, j, c, hj, hf.1, hf.2.2⟩
  all_goals simp at hf

theorem index_capWith {ds : List Delegation} {e v : Val}
    (h : (⟨e, .capWith, v⟩ : Fact) ∈ buildIndex ds) :
    ∃ d ∈ ds, ∃ j c, d.capabilities[j]? = some c ∧ e = .cap d.cid j ∧ v = .str c.cwith := by
  obtain ⟨d, hd, hf⟩ := mem_buildIndex.mp h
  rcases mem_factsOf.mp hf with hf | hf | hf | ⟨j, c, hj, hf | hf | ⟨kv, hkv, hf⟩ | hf⟩ |
    ⟨p, hp, hf⟩ <;> simp only [Fact.mk.injEq] at hf
  case intro.intro.inr.inr.inr.inl.intro.intro.intro.inr.inl => exact ⟨d, hd, j, c, hj, hf.1, hf.2.2⟩
  all_goals simp at hf

theorem index_capNb {ds : List Delegation} {field : String} {e v : Val}
    (h : (⟨e, .capNb field, v⟩ : Fact) ∈ buildIndex ds) :
    ∃ d ∈ ds, ∃ j c, d.capabilities[j]? = some c ∧ e = .cap d.cid j ∧ (field, v) ∈ c.nb := by
  obtain ⟨d, hd, hf⟩ := mem_buildIndex.mp h
  rcases mem_factsOf.mp hf with hf | hf | hf | ⟨j, c, hj, hf | hf | ⟨kv, hkv, hf⟩ | hf⟩ |
    ⟨p, hp, hf⟩ <;> simp only [Fact.mk.injEq] at hf
  case intro.intro.inr.inr.inr.inl.intro.intro.intro.inr.inr.inl.intro.intro =>
    obtain ⟨h1, h2, h3⟩ := hf
    have h2' : field = kv.1 := by injection h2
    refine ⟨d, hd, j, c, hj, h1, ?_⟩
    rw [h2', h3]
    exact hkv
  all_goals simp at hf

theorem index_proof {ds : List Delegation} {e v : Val}
    (h : (⟨e, .proof, v⟩ : Fact) ∈ buildIndex ds) :
    ∃ d ∈ ds, e = .del d.cid ∧ ∃ p ∈ d.proofs, v = .del p := by
  obtain ⟨d, hd, hf⟩ := mem_buildIndex.mp h
  rcases mem_factsOf.mp hf with hf | hf | hf | ⟨j, c, hj, hf | hf | ⟨kv, hkv, hf⟩ | hf⟩ |
    ⟨p, hp, hf⟩ <;> simp only [Fact.mk.injEq] at hf
  case intro.intro.inr.inr.inr.inr.intro.intro => exact ⟨d, hd, hf.1, p, hp, hf.2.2⟩
  all_goals simp at hf

theorem issuer_mem_index {ds : List Delegation} {d : Delegation} (hd : d ∈ ds) :
    (⟨.del d.cid, .issuer, .str d.issuer⟩ : Fact) ∈ buildIndex ds :=
  mem_buildIndex.mpr ⟨d, hd, mem_factsOf.mpr (Or.inl rfl)⟩

theorem audience_mem_index {ds : List Delegation} {d : Delegation} (hd : d ∈ ds) :
    (⟨.del d.cid, .audience, .str d.audience⟩ : Fact) ∈ buildIndex ds :=
  mem_buildIndex.mpr ⟨d, hd, mem_factsOf.mpr (Or.inr (Or.inl rfl))⟩

theorem expiration_mem_index {ds : List Delegation} {d : Delegation} (hd : d ∈ ds) :
    (⟨.del d.cid, .expiration, expVal d.expiration⟩ : Fact) ∈ buildIndex ds :=
  mem_buildIndex.mpr ⟨d, hd, mem_factsOf.mpr (Or.inr (Or.inr (Or.inl rfl)))⟩

theorem capCan_mem_index {ds : List Delegation} {d : Delegation} {j : Nat} {c : Capability}
    (hd : d ∈ ds) (hj : d.capabilities[j]? = some c) :
    (⟨.cap d.cid j, .capCan, .str c.can⟩ : Fact) ∈ buildIndex ds :=
  mem_buildIndex.mpr ⟨d, hd, mem_factsOf.mpr
    (Or.inr (Or.inr (Or.inr (Or.inl ⟨j, c, hj, Or.inl rfl⟩))))⟩

theorem capWith_mem_index {ds : List Delegation} {d : Delegation} {j : Nat} {c : Capability}
    (hd : d ∈ ds) (hj : d.capabilities[j]? = some c) :
    (⟨.cap d.cid j, .capWith, .str c.cwith⟩ : Fact) ∈ buildIndex ds :=
  mem_buildIndex.mpr ⟨d, hd, mem_factsOf.mpr
    (Or.inr (Or.inr (Or.inr (Or.inl ⟨j, c, hj, Or.inr (Or.inl rfl)⟩))))⟩

theorem capNb_mem_index {ds : List Delegation} {d : Delegation} {j : Nat} {c : Capability}
    {field : String} {v : Val}
    (hd : d ∈ ds) (hj : d.capabilities[j]? = some c) (hkv : (field, v) ∈ c.nb) :
    (⟨.cap d.cid j, .capNb field, v⟩ : Fact) ∈ buildIndex ds :=
  mem_buildIndex.mpr ⟨d, hd, mem_factsOf.mpr
    (Or.inr (Or.inr (Or.inr (Or.inl ⟨j, c, hj,
      Or.inr (Or.inr (Or.inl ⟨(field, v), hkv, rfl⟩))⟩))))⟩

theorem capability_mem_index {ds : List Delegation} {d : Delegation} {j : Nat} {c : Capability}
    (hd : d ∈ ds) (hj : d.capabilities[j]? = some c) :
    (⟨.del d.cid, .capability, .cap d.cid j⟩ : Fact) ∈ buildIndex ds :=
  mem_buildIndex.mpr ⟨d, hd, mem_factsOf.mpr
    (Or.inr (Or.inr (Or.inr (Or.inl ⟨j, c, hj, Or.inr (Or.inr (Or.inr rfl))⟩))))⟩

theorem proof_mem_index {ds : List Delegation} {d : Delegation} {p : Nat}
    (hd : d ∈ ds) (hp : p ∈ d.proofs) :
    (⟨.del d.cid, .proof, .del p⟩ : Fact) ∈ buildIndex ds :=
  mem_buildIndex.mpr ⟨d, hd, mem_factsOf.mpr
    (Or.inr (Or.inr (Or.inr (Or.inr ⟨p, hp, rfl⟩))))⟩

/-! ## Glob lemmas -/

theorem globMatch_nil (s : List Char) : globMatch [] s = s.isEmpty := rfl

theorem globMatch_star (ps s : List Char) :
    globMatch ('*' :: ps) s =
      (List.range (s.length + 1)).any fun k => globMatch ps (s.drop k) := rfl

theorem globMatch_cons {p : Char} (ps s : List Char) (hp : p ≠ '*') :
    globMatch (p :: ps) s =
      match s with
      | [] => false
      | c :: cs => p == c && globMatch ps cs := by
  rw [globMatch.eq_def]
  split
  · simp_all
  · simp_all
  · rename_i q qs hg heq
    injection heq with h1 h2
    subst h1
    subst h2
    rfl

theorem globMatch_refl (s : List Char) : globMatch s s = true := by
  induction s with
  | nil => rfl
  | cons c cs ih =>
    by_cases hc : c = '*'
    · subst hc
      rw [globMatch_star]
      rw [List.any_eq_true]
      refine ⟨1, by simp, ?_⟩
      simpa using ih
    · rw [globMatch_cons _ _ hc]
      simp [ih]

theorem globStr_refl (s : String) : globStr s s = true :=
  globMatch_refl s.toList

theorem globMatch_star_any (s : List Char) : globMatch ['*'] s = true := by
  rw [globMatch_star, List.any_eq_true]
  exact ⟨s.length, by simp, by simp [globMatch_nil]⟩

theorem globStr_star (s : String) : globStr "*" s = true := by
  have h : ("*" : String).toList = ['*'] := rfl
  rw [globStr, h]
  exact globMatch_star_any s.toList

/-! ## Soundness of the domain matchers -/

theorem eval_ext {idx : List Fact} {c : Clause} {b b' : Bindings}
    (h : b' ∈ evalClause idx c b) : Ext b b' :=
  fun _ _ hx => eval_mono h hx

theorem ext_trans {a b c : Bindings} (h1 : Ext a b) (h2 : Ext b c) : Ext a c :=
  fun x w hx => h2 x w (h1 x w hx)

theorem ext_resolve {b b' : Bindings} {t : Term} {v : Val}
    (he : Ext b b') (h : resolve b t = some v) : resolve b' t = some v :=
  resolve_mono he h

theorem fact_shape (f : Fact) {a : Attr} (h : f.attr = a) :
    f = ⟨f.entity, a, f.value⟩ := by
  cases f
  cases h
  rfl

theorem fact_sound {idx : List Fact} {e : Term} {a : Attr} {v : Term}
    {b b' : Bindings} (h : b' ∈ evalClause idx (.fact e a v) b) :
    ∃ f ∈ idx, f.attr = a ∧ resolve b' e = some f.entity ∧
      resolve b' v = some f.value := by
  obtain ⟨f, hf, ha, b1, h1, h2⟩ := mem_eval_fact.mp h
  refine ⟨f, hf, ha, ?_, unify_resolve h2⟩
  exact resolve_mono (fun _ _ hx => unify_mono h2 hx) (unify_resolve h1)

theorem val_cap_inj {a b i j : Nat} (h : Val.cap a i = Val.cap b j) : a = b ∧ i = j := by
  injection h with h1 h2
  exact ⟨h1, h2⟩

theorem val_del_inj {a b : Nat} (h : Val.del a = Val.del b) : a = b := by
  injection h

theorem val_str_inj {a b : String} (h : Val.str a = Val.str b) : a = b := by
  injection h

theorem uniq_cid {ds : List Delegation} (huniq : UniqueCids ds) {d d' : Delegation}
    (hd : d ∈ ds) (hd' : d' ∈ ds) (h : d.cid = d'.cid) : d = d' :=
  huniq d hd d' hd' h

theorem forwards_sound {ds : List Delegation} {b b' : Bindings}
    {dT issT audT canT : Term} {fresh : Nat} {tv : Val}
    (huniq : UniqueCids ds)
    (h : b' ∈ evalClause (buildIndex ds) (forwards dT issT audT canT (.const tv) fresh) b) :
    ∃ d ∈ ds, ∃ (j : Nat) (c : Capability), d.capabilities[j]? = some c ∧
      c.cwith = "ucan:*" ∧
      resolve b' dT = some (.del d.cid) ∧
      resolve b' canT = some (.str c.can) ∧
      resolve b' audT = some (.str d.audience) ∧
      resolve b' issT = some (.str d.issuer) ∧
      valGte (expVal d.expiration) tv = true := by
  rw [forwards] at h
  obtain ⟨b1, hc1, h⟩ := mem_eval_and.mp h
  obtain ⟨b2, hc2, h⟩ := mem_eval_and.mp h
  obtain ⟨b3, hc3, h⟩ := mem_eval_and.mp h
  obtain ⟨b4, hc4, h⟩ := mem_eval_and.mp h
  obtain ⟨b5, hc5, h⟩ := mem_eval_and.mp h
  obtain ⟨b6, hc6, hg⟩ := mem_eval_and.mp h
  obtain ⟨f1, hf1, ha1, he1, hv1⟩ := fact_sound hc1
  obtain ⟨f2, hf2, ha2, he2, hv2⟩ := fact_sound hc2
  obtain ⟨f3, hf3, ha3, he3, hv3⟩ := fact_sound hc3
  obtain ⟨f4, hf4, ha4, he4, hv4⟩ := fact_sound hc4
  obtain ⟨f5, hf5, ha5, he5, hv5⟩ := fact_sound hc5
  obtain ⟨f6, hf6, ha6, he6, hv6⟩ := fact_sound hc6
  obtain ⟨hgb, ea, ec, hra, hrc, hgte⟩ := mem_eval_gte.mp hg
  have x6 : Ext b6 b' := fun x w hx => hgb ▸ hx
  have x5 : Ext b5 b' := ext_trans (eval_ext hc6) x6
  have x4 : Ext b4 b' := ext_trans (eval_ext hc5) x5
  have x3 : Ext b3 b' := ext_trans (eval_ext hc4) x4
  have x2 : Ext b2 b' := ext_trans (eval_ext hc3) x3
  have x1 : Ext b1 b' := ext_trans (eval_ext hc2) x2
  have re1 := ext_resolve x1 he1
  have rv1 := ext_resolve x1 hv1
  have re2 := ext_resolve x2 he2
  have rv2 := ext_resolve x2 hv2
  have re3 := ext_resolve x3 he3
  have rv3 := ext_resolve x3 hv3
  have re4 := ext_resolve x4 he4
  have rv4 := ext_resolve x4 hv4
  have re5 := ext_resolve x5 he5
  have rv5 := ext_resolve x5 hv5
  have re6 := ext_resolve x6 he6
  have rv6 := ext_resolve x6 hv6
  obtain ⟨d, hd, he1', j, c, hj, hv1'⟩ := by
    rw [fact_shape f1 ha1] at hf1
    exact index_capability hf1
  obtain ⟨d2, hd2, j2, c2, hj2, he2', hv2'⟩ := by
    rw [fact_shape f2 ha2] at hf2
    exact index_capCan hf2
  obtain ⟨d3, hd3, j3, c3, hj3, he3', hv3'⟩ := by
    rw [fact_shape f3 ha3] at hf3
    exact index_capWith hf3
  obtain ⟨d4, hd4, he4', hv4'⟩ := by
    rw [fact_shape f4 ha4] at hf4
    exact index_audience hf4
  obtain ⟨d5, hd5, he5', hv5'⟩ := by
    rw [fact_shape f5 ha5] at hf5
    exact index_issuer hf5
  obtain ⟨d6, hd6, he6', hv6'⟩ := by
    rw [fact_shape f6 ha6] at hf6
    exact index_expiration hf6
  -- tie the capability entity of f2, f3 to f1
  have hcap2 : Val.cap d.cid j = Val.cap d2.cid j2 := by
    rw [← hv1', ← he2']
    exact Option.some.inj (rv1.symm.trans re2)
  have hcap3 : Val.cap d.cid j = Val.cap d3.cid j3 := by
    rw [← hv1', ← he3']
    exact Option.some.inj (rv1.symm.trans re3)
  obtain ⟨hcid2, hj2'⟩ := val_cap_inj hcap2
  obtain ⟨hcid3, hj3'⟩ := val_cap_inj hcap3
  have hd2d : d = d2 := uniq_cid huniq hd hd2 hcid2
  have hd3d : d = d3 := uniq_cid huniq hd hd3 hcid3
  have hc2c : c2 = c := by
    rw [← hd2d, ← hj2'] at hj2
    rw [hj] at hj2
    exact (Option.some.inj hj2).symm
  have hc3c : c3 = c := by
    rw [← hd3d, ← hj3'] at hj3
    rw [hj] at hj3
    exact (Option.some.inj hj3).symm
  -- tie the delegation entity of f4, f5, f6 to f1
  have hdel4 : Val.del d.cid = Val.del d4.cid := by
    rw [← he1', ← he4']
    exact Option.some.inj (re1.symm.trans re4)
  have hdel5 : Val.del d.cid = Val.del d5.cid := by
    rw [← he1', ← he5']
    exact Option.some.inj (re1.symm.trans re5)
  have hdel6 : Val.del d.cid = Val.del d6.cid := by
    rw [← he1', ← he6']
    exact Option.some.inj (re1.symm.trans re6)
  have hd4d : d = d4 := uniq_cid huniq hd hd4 (val_del_inj hdel4)
  have hd5d : d = d5 := uniq_cid huniq hd hd5 (val_del_inj hdel5)
  have hd6d : d = d6 := uniq_cid huniq hd hd6 (val_del_inj hdel6)
  -- the capWith value is the ucan:* constant
  have hwith : c.cwith = "ucan:*" := by
    have hc : resolve b' (Term.const (Val.str "ucan:*")) = some (Val.str "ucan:*") := rfl
    have := Option.some.inj (rv3.symm.trans hc)
    rw [hv3', hc3c] at this
    exact val_str_inj this
  -- the gte clause compares the expiration of d with tv
  have hexp : ea = expVal d.expiration := by
    have h1 : resolve b6 (.var (fresh + 1)) = some f6.value := hv6
    have := Option.some.inj (hra.symm.trans h1)
    rw [hv6', ← hd6d] at this
    exact this
  have htv : ec = tv := by
    have hc : resolve b6 (Term.const tv) = some tv := rfl
    exact Option.some.inj (hrc.symm.trans hc)
  refine ⟨d, hd, j, c, hj, hwith, ?_, ?_, ?_, ?_, ?_⟩
  · rw [re1, he1']
  · rw [rv2, hv2', hc2c]
  · rw [rv4, hv4', ← hd4d]
  · rw [rv5, hv5', ← hd5d]
  · rw [← hexp, ← htv]
    exact hgte

theorem explicit_sound {ds : List Delegation} {b b' : Bindings}
    {dT audT issT subjT canT : Term} {fresh : Nat} {tv : Val}
    (huniq : UniqueCids ds)
    (h : b' ∈ evalClause (buildIndex ds)
      (explicitM dT audT issT subjT canT (.const tv) fresh) b) :
    explicitPkg ds b' dT audT issT subjT canT tv := by
  rw [explicitM, capabilityMatch, delegationMatch] at h
  obtain ⟨bm, hcm, h⟩ := mem_eval_and.mp h
  obtain ⟨b1, hc1, hc2⟩ := mem_eval_and.mp hcm
  obtain ⟨b3, hc3, h⟩ := mem_eval_and.mp h
  obtain ⟨b4, hc4, h⟩ := mem_eval_and.mp h
  obtain ⟨b5, hc5, h⟩ := mem_eval_and.mp h
  obtain ⟨b6, hc6, hg⟩ := mem_eval_and.mp h
  obtain ⟨f1, hf1, ha1, he1, hv1⟩ := fact_sound hc1
  obtain ⟨f2, hf2, ha2, he2, hv2⟩ := fact_sound hc2
  obtain ⟨f3, hf3, ha3, he3, hv3⟩ := fact_sound hc3
  obtain ⟨f4, hf4, ha4, he4, hv4⟩ := fact_sound hc4
  obtain ⟨f5, hf5, ha5, he5, hv5⟩ := fact_sound hc5
  obtain ⟨f6, hf6, ha6, he6, hv6⟩ := fact_sound hc6
  obtain ⟨hgb, ea, ec, hra, hrc, hgte⟩ := mem_eval_gte.mp hg
  have x6 : Ext b6 b' := fun x w hx => hgb ▸ hx
  have x5 : Ext b5 b' := ext_trans (eval_ext hc6) x6
  have x4 : Ext b4 b' := ext_trans (eval_ext hc5) x5
  have x3 : Ext b3 b' := ext_trans (eval_ext hc4) x4
  have x2 : Ext bm b' := ext_trans (eval_ext hc3) x3
  have x1 : Ext b1 b' := ext_trans (eval_ext hc2) x2
  have re1 := ext_resolve x1 he1
  have rv1 := ext_resolve x1 hv1
  have re2 := ext_resolve x2 he2
  have rv2 := ext_resolve x2 hv2
  have re3 := ext_resolve x3 he3
  have rv3 := ext_resolve x3 hv3
  have re4 := ext_resolve x4 he4
  have rv4 := ext_resolve x4 hv4
  have re5 := ext_resolve x5 he5
  have rv5 := ext_resolve x5 hv5
  have re6 := ext_resolve x6 he6
  have rv6 := ext_resolve x6 hv6
  obtain ⟨d1, hd1, j1, c1, hj1, he1', hv1'⟩ := by
    rw [fact_shape f1 ha1] at hf1
    exact index_capCan hf1
  obtain ⟨d2, hd2, j2, c2, hj2, he2', hv2'⟩ := by
    rw [fact_shape f2 ha2] at hf2
    exact index_capWith hf2
  obtain ⟨d, hd, he3', j, c, hj, hv3'⟩ := by
    rw [fact_shape f3 ha3] at hf3
    exact index_capability hf3
  obtain ⟨d4, hd4, he4', hv4'⟩ := by
    rw [fact_shape f4 ha4] at hf4
    exact index_audience hf4
  obtain ⟨d5, hd5, he5', hv5'⟩ := by
    rw [fact_shape f5 ha5] at hf5
    exact index_issuer hf5
  obtain ⟨d6, hd6, he6', hv6'⟩ := by
    rw [fact_shape f6 ha6] at hf6
    exact index_expiration hf6
  have hcap1 : Val.cap d.cid j = Val.cap d1.cid j1 := by
    rw [← hv3', ← he1']
    exact Option.some.inj (rv3.symm.trans re1)
  have hcap2 : Val.cap d.cid j = Val.cap d2.cid j2 := by
    rw [← hv3', ← he2']
    exact Option.some.inj (rv3.symm.trans re2)
  obtain ⟨hcid1, hj1'⟩ := val_cap_inj hcap1
  obtain ⟨hcid2, hj2'⟩ := val_cap_inj hcap2
  have hd1d : d = d1 := uniq_cid huniq hd hd1 hcid1
  have hd2d : d = d2 := uniq_cid huniq hd hd2 hcid2
  have hc1c : c1 = c := by
    rw [← hd1d, ← hj1'] at hj1
    rw [hj] at hj1
    exact (Option.some.inj hj1).symm
  have hc2c : c2 = c := by
    rw [← hd2d, ← hj2'] at hj2
    rw [hj] at hj2
    exact (Option.some.inj hj2).symm
  have hdel4 : Val.del d.cid = Val.del d4.cid := by
    rw [← he3', ← he4']
    exact Option.some.inj (re3.symm.trans re4)
  have hdel5 : Val.del d.cid = Val.del d5.cid := by
    rw [← he3', ← he5']
    exact Option.some.inj (re3.symm.trans re5)
  have hdel6 : Val.del d.cid = Val.del d6.cid := by
    rw [← he3', ← he6']
    exact Option.some.inj (re3.symm.trans re6)
  have hd4d : d = d4 := uniq_cid huniq hd hd4 (val_del_inj hdel4)
  have hd5d : d = d5 := uniq_cid huniq hd hd5 (val_del_inj hdel5)
  have hd6d : d = d6 := uniq_cid huniq hd hd6 (val_del_inj hdel6)
  have hexp : ea = expVal d.expiration := by
    have h1 : resolve b6 (.var (fresh + 1)) = some f6.value := hv6
    have := Option.some.inj (hra.symm.trans h1)
    rw [hv6', ← hd6d] at this
    exact this
  have htv : ec = tv := by
    have hc : resolve b6 (Term.const tv) = some tv := rfl
    exact Option.some.inj (hrc.symm.trans hc)
  refine ⟨d, hd, j, c, hj, ?_, ?_, ?_, ?_, ?_, ?_⟩
  · rw [re3, he3']
  · rw [rv1, hv1', hc1c]
  · rw [rv2, hv2', hc2c]
  · rw [rv4, hv4', ← hd4d]
  · rw [rv5, hv5', ← hd5d]
  · rw [← hexp, ← htv]
    exact hgte

theorem attestation_sound {ds : List Delegation} {b b' : Bindings}
    {attT proofT audT : Term} {fresh : Nat} {tv : Val}
    (huniq : UniqueCids ds)
    (h : b' ∈ evalClause (buildIndex ds)
      (attestationMatch attT proofT audT (.const tv) fresh) b) :
    attestPkg ds b' attT proofT audT tv := by
  rw [attestationMatch] at h
  obtain ⟨b1, hc1, h⟩ := mem_eval_and.mp h
  obtain ⟨b2, hc2, h⟩ := mem_eval_and.mp h
  obtain ⟨b3, hc3, h⟩ := mem_eval_and.mp h
  obtain ⟨b4, hc4, h⟩ := mem_eval_and.mp h
  obtain ⟨b5, hc5, hg⟩ := mem_eval_and.mp h
  obtain ⟨f1, hf1, ha1, he1, hv1⟩ := fact_sound hc1
  obtain ⟨f2, hf2, ha2, he2, hv2⟩ := fact_sound hc2
  obtain ⟨f3, hf3, ha3, he3, hv3⟩ := fact_sound hc3
  obtain ⟨f4, hf4, ha4, he4, hv4⟩ := fact_sound hc4
  obtain ⟨f5, hf5, ha5, he5, hv5⟩ := fact_sound hc5
  obtain ⟨hgb, ea, ec, hra, hrc, hgte⟩ := mem_eval_gte.mp hg
  have x5 : Ext b5 b' := fun x w hx => hgb ▸ hx
  have x4 : Ext b4 b' := ext_trans (eval_ext hc5) x5
  have x3 : Ext b3 b' := ext_trans (eval_ext hc4) x4
  have x2 : Ext b2 b' := ext_trans (eval_ext hc3) x3
  have x1 : Ext b1 b' := ext_trans (eval_ext hc2) x2
  have re1 := ext_resolve x1 he1
  have rv1 := ext_resolve x1 hv1
  have re2 := ext_resolve x2 he2
  have rv2 := ext_resolve x2 hv2
  have re3 := ext_resolve x3 he3
  have rv3 := ext_resolve x3 hv3
  have re4 := ext_resolve x4 he4
  have rv4 := ext_resolve x4 hv4
  have re5 := ext_resolve x5 he5
  have rv5 := ext_resolve x5 hv5
  obtain ⟨a, ha, he1', j, c, hj, hv1'⟩ := by
    rw [fact_shape f1 ha1] at hf1
    exact index_capability hf1
  obtain ⟨d2, hd2, j2, c2, hj2, he2', hv2'⟩ := by
    rw [fact_shape f2 ha2] at hf2
    exact index_capCan hf2
  obtain ⟨d3, hd3, j3, c3, hj3, he3', hv3'⟩ := by
    rw [fact_shape f3 ha3] at hf3
    exact index_capNb hf3
  obtain ⟨d4, hd4, he4', hv4'⟩ := by
    rw [fact_shape f4 ha4] at hf4
    exact index_audience hf4
  obtain ⟨d5, hd5, he5', hv5'⟩ := by
    rw [fact_shape f5 ha5] at hf5
    exact index_expiration hf5
  have hcap2 : Val.cap a.cid j = Val.cap d2.cid j2 := by
    rw [← hv1', ← he2']
    exact Option.some.inj (rv1.symm.trans re2)
  have hcap3 : Val.cap a.cid j = Val.cap d3.cid j3 := by
    rw [← hv1', ← he3']
    exact Option.some.inj (rv1.symm.trans re3)
  obtain ⟨hcid2, hj2'⟩ := val_cap_inj hcap2
  obtain ⟨hcid3, hj3'⟩ := val_cap_inj hcap3
  have hd2d : a = d2 := uniq_cid huniq ha hd2 hcid2
  have hd3d : a = d3 := uniq_cid huniq ha hd3 hcid3
  have hc2c : c2 = c := by
    rw [← hd2d, ← hj2'] at hj2
    rw [hj] at hj2
    exact (Option.some.inj hj2).symm
  have hc3c : c3 = c := by
    rw [← hd3d, ← hj3'] at hj3
    rw [hj] at hj3
    exact (Option.some.inj hj3).symm
  have hattest : c.can = "ucan/attest" := by
    have hc : resolve b' (Term.const (Val.str "ucan/attest")) = some (Val.str "ucan/attest") := rfl
    have := Option.some.inj (rv2.symm.trans hc)
    rw [hv2', hc2c] at this
    exact val_str_inj this
  have hdel4 : Val.del a.cid = Val.del d4.cid := by
    rw [← he1', ← he4']
    exact Option.some.inj (re1.symm.trans re4)
  have hdel5 : Val.del a.cid = Val.del d5.cid := by
    rw [← he1', ← he5']
    exact Option.some.inj (re1.symm.trans re5)
  have hd4d : a = d4 := uniq_cid huniq ha hd4 (val_del_inj hdel4)
  have hd5d : a = d5 := uniq_cid huniq ha hd5 (val_del_inj hdel5)
  have hexp : ea = expVal a.expiration := by
    have h1 : resolve b5 (.var (fresh + 1)) = some f5.value := hv5
    have := Option.some.inj (hra.symm.trans h1)
    rw [hv5', ← hd5d] at this
    exact this
  have htv : ec = tv := by
    have hc : resolve b5 (Term.const tv) = some tv := rfl
    exact Option.some.inj (hrc.symm.trans hc)
  refine ⟨a, ha, ?_, ?_, ?_, j, c, hj, hattest, f3.value, rv3, ?_⟩
  · rw [re1, he1']
  · rw [rv4, hv4', ← hd4d]
  · rw [← hexp, ← htv]
    exact hgte
  · exact hc3c ▸ hv3'

theorem implicit_sound {ds : List Delegation} {b b' : Bindings}
    {dT audT issT subjT canT : Term} {fresh : Nat} {tv : Val}
    (huniq : UniqueCids ds)
    (h : b' ∈ evalClause (buildIndex ds)
      (implicitM dT audT issT subjT canT (.const tv) fresh) b) :
    implicitPkg ds b' dT audT issT subjT canT tv := by
  rw [implicitM] at h
  obtain ⟨b1, hfw, hor⟩ := mem_eval_and.mp h
  obtain ⟨d, hd, j, c, hj, hwith, rdT, rcanT, raudT, rissT, hexp⟩ :=
    forwards_sound huniq hfw
  rcases mem_eval_or.mp hor with hib | hinner
  · -- issued by the subject
    obtain ⟨f, hf, ha, he, hv⟩ := fact_sound hib
    obtain ⟨d', hd', he', hv'⟩ := by
      rw [fact_shape f ha] at hf
      exact index_issuer hf
    have xext : Ext b1 b' := eval_ext hib
    have rdT' := ext_resolve xext rdT
    have hdel : Val.del d.cid = Val.del d'.cid := by
      rw [← he']
      exact Option.some.inj (rdT'.symm.trans he)
    have hdd : d = d' := uniq_cid huniq hd hd' (val_del_inj hdel)
    refine ⟨d, hd, ⟨j, c, hj, hwith, ext_resolve xext rcanT⟩, rdT',
      ext_resolve xext raudT, ext_resolve xext rissT, hexp, Or.inl ?_⟩
    rw [hv, hv', ← hdd]
  · -- carries an explicit inner proof
    obtain ⟨b2, hhp, hex⟩ := mem_eval_and.mp hinner
    obtain ⟨f, hf, ha, he, hv⟩ := fact_sound hhp
    obtain ⟨dp, hdp, he', pe, hpe, hv'⟩ := by
      rw [fact_shape f ha] at hf
      exact index_proof hf
    have x2 : Ext b2 b' := eval_ext hex
    have x1 : Ext b1 b' := ext_trans (eval_ext hhp) x2
    have rdT' := ext_resolve x1 rdT
    have rdT2 := ext_resolve x2 he
    have hdel : Val.del d.cid = Val.del dp.cid := by
      rw [← he']
      exact Option.some.inj (rdT'.symm.trans rdT2)
    have hdd : d = dp := uniq_cid huniq hd hdp (val_del_inj hdel)
    have hpe' : pe ∈ d.proofs := by rw [hdd]; exact hpe
    obtain ⟨p, hp, jp, cp, hjp, rpT, rcan2, rsubj2, raud2, riss2, hexp2⟩ :=
      explicit_sound huniq hex
    -- the proof variable is bound to both pe and p.cid
    have hvp := ext_resolve x2 hv
    have hpcid : p.cid = pe := by
      have heq : Val.del p.cid = Val.del pe := by
        rw [← hv']
        exact Option.some.inj (rpT.symm.trans hvp)
      exact val_del_inj heq
    -- the inner audience term is the outer issuer term
    have hpaud : p.audience = d.issuer := by
      have r1 := ext_resolve x1 rissT
      have heq := Option.some.inj (r1.symm.trans raud2)
      exact (val_str_inj heq).symm
    refine ⟨d, hd, ⟨j, c, hj, hwith, ext_resolve x1 rcanT⟩, rdT',
      ext_resolve x1 raudT, ext_resolve x1 rissT, hexp,
      Or.inr ⟨p, hp, by rw [hpcid]; exact hpe', hpaud, jp, cp, hjp, rcan2, rsubj2, hexp2⟩⟩

theorem matchM_sound {ds : List Delegation} {b b' : Bindings}
    {dT audT issT subjT canT : Term} {fresh : Nat} {tv : Val}
    (huniq : UniqueCids ds)
    (h : b' ∈ evalClause (buildIndex ds)
      (matchM dT audT issT subjT canT (.const tv) fresh) b) :
    matchPkg ds b' dT audT issT subjT canT tv := by
  rw [matchM] at h
  rcases mem_eval_or.mp h with h' | h'
  · exact Or.inl (explicit_sound huniq h')
  · exact Or.inr (implicit_sound huniq h')

/-! ## Variable ranges of the generated clauses -/

theorem mem_clauseVars_matchM {x p o i s c : Nat} {tv : Val} {fr : Nat}
    (hx : x ∈ clauseVars
      (matchM (.var p) (.var o) (.var i) (.var s) (.var c) (.const tv) fr)) :
    x = p ∨ x = o ∨ x = i ∨ x = s ∨ x = c ∨ (fr ≤ x ∧ x < fr + 8) := by
  simp only [matchM, explicitM, implicitM, forwards, issuedBy, hasProof,
    capabilityMatch, delegationMatch, clauseVars, termVars, List.mem_append,
    List.mem_cons, List.mem_singleton, List.not_mem_nil, or_false, false_or] at hx
  omega

theorem mem_clauseVars_attestationMatch {x a p o : Nat} {tv : Val} {fr : Nat}
    (hx : x ∈ clauseVars
      (attestationMatch (.var a) (.var p) (.var o) (.const tv) fr)) :
    x = a ∨ x = p ∨ x = o ∨ (fr ≤ x ∧ x < fr + 2) := by
  simp only [attestationMatch, clauseVars, termVars, List.mem_append,
    List.mem_cons, List.mem_singleton, List.not_mem_nil, or_false, false_or] at hx
  omega

theorem mem_clauseVars_groupClause {x : Nat} {t : Int} {i : Nat} {n : Option String}
    (hx : x ∈ clauseVars (groupClause t (mkGroup i n))) :
    x = 0 ∨ x = 1 ∨ (2 + 14 * i ≤ x ∧ x < 2 + 14 * i + 14) := by
  cases n <;>
    (simp only [groupClause, mkGroup, matchM, explicitM, implicitM, forwards, issuedBy,
      hasProof, capabilityMatch, delegationMatch, attestationMatch, clauseVars, termVars,
      List.mem_append, List.mem_cons, List.mem_singleton, List.not_mem_nil,
      or_false, false_or] at hx) <;>
    omega

theorem mem_clauseVars_textMatch {x v : Nat} {tc : TextConstraint}
    (hx : x ∈ clauseVars (textMatch (.var v) tc)) : x = v := by
  cases tc <;>
    simpa [textMatch, clauseVars, termVars] using hx

/-! ## Group-level soundness -/

theorem matchPkg_core {ds : List Delegation} {b : Bindings}
    {dT audT issT subjT canT : Term} {tv : Val}
    (h : matchPkg ds b dT audT issT subjT canT tv) :
    ∃ d ∈ ds, resolve b dT = some (.del d.cid) ∧
      resolve b audT = some (.str d.audience) ∧
      resolve b issT = some (.str d.issuer) ∧
      (∃ (j : Nat) (c : Capability), d.capabilities[j]? = some c ∧
        resolve b canT = some (.str c.can)) ∧
      valGte (expVal d.expiration) tv = true := by
  rcases h with ⟨d, hd, j, c, hj, rdT, rcan, rsubj, raud, riss, hexp⟩ |
    ⟨d, hd, ⟨j, c, hj, hw, rcan⟩, rdT, raud, riss, hexp, hsub⟩
  · exact ⟨d, hd, rdT, raud, riss, ⟨j, c, hj, rcan⟩, hexp⟩
  · exact ⟨d, hd, rdT, raud, riss, ⟨j, c, hj, rcan⟩, hexp⟩

theorem matchPkg_capability {ds : List Delegation} {b : Bindings}
    {dT audT issT subjT canT : Term} {tv : Val}
    (h : matchPkg ds b dT audT issT subjT canT tv) :
    ∃ d ∈ ds, resolve b dT = some (.del d.cid) ∧
      ∃ (j : Nat) (cc : Capability), d.capabilities[j]? = some cc ∧
        resolve b canT = some (.str cc.can) ∧
        (resolve b subjT = some (.str cc.cwith) ∨ cc.cwith = "ucan:*") := by
  rcases h with ⟨d, hd, j, c, hj, rdT, rcan, rsubj, raud, riss, hexp⟩ |
    ⟨d, hd, ⟨j, c, hj, hw, rcan⟩, rdT, raud, riss, hexp, hsub⟩
  · exact ⟨d, hd, rdT, j, c, hj, rcan, Or.inl rsubj⟩
  · exact ⟨d, hd, rdT, j, c, hj, rcan, Or.inr hw⟩

theorem evalWhere_untouched {idx : List Fact} {cl : List Clause} {b bf : Bindings}
    (h : bf ∈ evalWhere idx cl b) {x : Nat}
    (hx : ∀ c ∈ cl, x ∉ clauseVars c) :
    bfind bf x = bfind b x := by
  induction cl generalizing b with
  | nil => rw [mem_evalWhere_nil.mp h]
  | cons c rest ih =>
    obtain ⟨bm, hm, hrest⟩ := mem_evalWhere_cons.mp h
    rw [ih hrest fun c' hc' => hx c' (List.mem_cons_of_mem c hc'),
      eval_untouched hm (hx c (List.mem_cons_self c rest))]

theorem evalWhere_ext {idx : List Fact} {cl : List Clause} {b bf : Bindings}
    (h : bf ∈ evalWhere idx cl b) : Ext b bf := by
  induction cl generalizing b with
  | nil => exact fun x w hx => (mem_evalWhere_nil.mp h) ▸ hx
  | cons c rest ih =>
    obtain ⟨bm, hm, hrest⟩ := mem_evalWhere_cons.mp h
    exact ext_trans (eval_ext hm) (ih hrest)

theorem group_sound {ds : List Delegation} {t : Int} {i : Nat} {n : Option String}
    {b b' : Bindings}
    (huniq : UniqueCids ds)
    (hfree : bfind b (2 + 14 * i + 3) = none)
    (h : b' ∈ evalClause (buildIndex ds) (groupClause t (mkGroup i n)) b) :
    groupOut ds t (mkGroup i n) b' := by
  rw [groupClause] at h
  obtain ⟨b2, hmain, hatt⟩ := mem_eval_and.mp h
  have hm2 : b2 ∈ evalClause (buildIndex ds)
      (matchM (.var (mkGroup i n).proof) (.var 1) (.var (mkGroup i n).issuer) (.var 0)
        (.var (mkGroup i n).can) (.const (.int t)) ((mkGroup i n).base + 4)) b ∧
      ∀ nd, (mkGroup i n).need = some nd →
        ∃ cv, resolve b2 (.var (mkGroup i n).can) = some (.str cv) ∧
          globStr cv nd = true := by
    cases n with
    | none =>
      refine ⟨hmain, ?_⟩
      intro nd hnd
      exact Option.noConfusion hnd
    | some need =>
      obtain ⟨b1, hm1, hglob⟩ := mem_eval_and.mp hmain
      obtain ⟨heq, sv, pv, hsv, hpv, hg⟩ := mem_eval_glob.mp hglob
      have hsv' : sv = need := by
        have : (some (Val.str need) : Option Val) = some (.str sv) := hsv
        exact (val_str_inj (Option.some.inj this)).symm
      refine ⟨heq ▸ hm1, ?_⟩
      intro nd hnd
      have hndeq : need = nd := by injection hnd
      exact ⟨pv, heq ▸ hpv, by rw [← hndeq, ← hsv']; exact hg⟩
  obtain ⟨hm, hglobfact⟩ := hm2
  have hpkg := matchM_sound huniq hm
  obtain ⟨pd, hpd, rdT, raud, riss, -, hexp⟩ := matchPkg_core hpkg
  obtain ⟨d', hd', rdTq, jq, ccq, hjq, rcanq, hsubjq⟩ := matchPkg_capability hpkg
  have hde : d' = pd :=
    uniq_cid huniq hd' hpd (val_del_inj (Option.some.inj (rdTq.symm.trans rdT)))
  rw [hde] at hjq
  have hglobcc : ∀ nd, (mkGroup i n).need = some nd → globStr ccq.can nd = true := by
    intro nd hnd
    obtain ⟨cv, hcv, hg⟩ := hglobfact nd hnd
    have hcve : cv = ccq.can := val_str_inj (Option.some.inj (hcv.symm.trans rcanq))
    rw [← hcve]
    exact hg
  have hfree1 : bfind b2 ((mkGroup i n).base + 3) = none := by
    rw [eval_untouched hm ?hnv]
    · exact hfree
    case hnv =>
      intro hmem
      rcases mem_clauseVars_matchM hmem with h' | h' | h' | h' | h' | h' <;>
        simp only [mkGroup] at h' <;> omega
  have x1 : Ext b2 b' := eval_ext hatt
  rcases mem_eval_or.mp hatt with hnb | hab
  · -- the proof is not issued by a did:mailto principal
    obtain ⟨heq, hempty⟩ := mem_eval_not.mp hnb
    have hmailto : globStr "did:mailto:*" pd.issuer = false := by
      by_contra hcon
      have hmt : globStr "did:mailto:*" pd.issuer = true := by
        cases hg : globStr "did:mailto:*" pd.issuer
        · exact absurd hg hcon
        · rfl
      have hmem : b2 ∈ evalClause (buildIndex ds)
          (.glob (.var (mkGroup i n).issuer) (.const (.str "did:mailto:*"))) b2 := by
        apply mem_eval_glob.mpr
        exact ⟨rfl, pd.issuer, "did:mailto:*", riss, rfl, hmt⟩
      rw [hempty] at hmem
      exact absurd hmem (List.not_mem_nil b2)
    refine ⟨pd, hpd, ?_, ?_, ?_, hexp, ⟨jq, ccq, hjq, ?_, hglobcc, ?_⟩,
      Or.inl ⟨?_, hmailto⟩⟩
    · exact heq ▸ rdT
    · exact heq ▸ riss
    · exact heq ▸ raud
    · exact heq ▸ rcanq
    · rcases hsubjq with hs | hs
      · exact Or.inl (heq ▸ hs)
      · exact Or.inr hs
    · rw [heq]
      exact hfree1
  · -- a matching attestation accompanies the proof
    obtain ⟨ad, had, ratt, raud2, hexp2, j, c, hj, hcan, pv, rproof, hnb⟩ :=
      attestation_sound huniq hab
    have rdT' := ext_resolve x1 rdT
    have raud' := ext_resolve x1 raud
    have riss' := ext_resolve x1 riss
    have hpv : pv = Val.del pd.cid :=
      Option.some.inj (rproof.symm.trans rdT')
    have haudeq : ad.audience = pd.audience := by
      have heq2 := Option.some.inj (raud'.symm.trans raud2)
      exact (val_str_inj heq2).symm
    refine ⟨pd, hpd, rdT', riss', raud', hexp,
      ⟨jq, ccq, hjq, ext_resolve x1 rcanq, hglobcc, ?_⟩, Or.inr
      ⟨ad, had, ratt, haudeq, hexp2, j, c, hj, hcan, ?_⟩⟩
    · rcases hsubjq with hs | hs
      · exact Or.inl (ext_resolve x1 hs)
      · exact Or.inr hs
    · rw [← hpv]
      exact hnb

/-! ## The generated groups, uniformly -/

theorem mkGroupsFrom_eq_aux : ∀ (l : List String) (i : Nat),
    mkGroupsFrom i l = mkGroupsAux i (l.map some) := by
  intro l
  induction l with
  | nil => intro i; rfl
  | cons n rest ih =>
    intro i
    simp only [mkGroupsFrom, List.map_cons, mkGroupsAux, ih]

theorem mkGroups_eq_aux (l : List String) :
    mkGroups l = mkGroupsAux 0 (needsOf l) := by
  cases l with
  | nil => rfl
  | cons n rest =>
    rw [show needsOf (n :: rest) = (n :: rest).map some from rfl]
    exact mkGroupsFrom_eq_aux (n :: rest) 0

theorem mem_mkGroupsAux {g : ProofGroup} : ∀ {ns : List (Option String)} {i0 : Nat},
    g ∈ mkGroupsAux i0 ns → ∃ k n, ns[k]? = some n ∧ g = mkGroup (i0 + k) n := by
  intro ns
  induction ns with
  | nil => intro i0 h; simp [mkGroupsAux] at h
  | cons n rest ih =>
    intro i0 h
    rw [mkGroupsAux, List.mem_cons] at h
    rcases h with rfl | h
    · exact ⟨0, n, by simp, by rw [Nat.add_zero]⟩
    · obtain ⟨k, n', hk, hg⟩ := ih h
      refine ⟨k + 1, n', by simpa using hk, ?_⟩
      rw [hg]
      have : i0 + 1 + k = i0 + (k + 1) := by omega
      rw [this]

theorem groupOut_mono {ds : List Delegation} {t : Int} {g : ProofGroup}
    {b1 bf : Bindings} (hout : groupOut ds t g b1) (hext : Ext b1 bf)
    (hat : bfind bf g.attestation = bfind b1 g.attestation) :
    groupOut ds t g bf := by
  obtain ⟨pd, hpd, h1, h2, h3, h4, ⟨jq, ccq, hjq, hcq, hgq, hsq⟩, h5⟩ := hout
  refine ⟨pd, hpd, hext _ _ h1, hext _ _ h2, hext _ _ h3, h4,
    ⟨jq, ccq, hjq, hext _ _ hcq, hgq, ?_⟩, ?_⟩
  · rcases hsq with hs | hs
    · exact Or.inl (hext _ _ hs)
    · exact Or.inr hs
  rcases h5 with ⟨hnone, hm⟩ | ⟨ad, had, ha1, ha2, ha3, j, c, hj, hc1, hc2⟩
  · exact Or.inl ⟨by rw [hat, hnone], hm⟩
  · exact Or.inr ⟨ad, had, hext _ _ ha1, ha2, ha3, j, c, hj, hc1, hc2⟩

theorem evalWhere_groups_sound {ds : List Delegation} {t : Int}
    (huniq : UniqueCids ds) :
    ∀ (ns : List (Option String)) (i0 : Nat) (b0 bf : Bindings),
      bf ∈ evalWhere (buildIndex ds) ((mkGroupsAux i0 ns).map (groupClause t)) b0 →
      (∀ x, 2 + 14 * i0 ≤ x → bfind b0 x = none) →
      ∀ g ∈ mkGroupsAux i0 ns, groupOut ds t g bf := by
  intro ns
  induction ns with
  | nil =>
    intro i0 b0 bf h hfree g hg
    simp [mkGroupsAux] at hg
  | cons n rest ih =>
    intro i0 b0 bf h hfree g hg
    rw [mkGroupsAux, List.map_cons] at h
    obtain ⟨b1, hg1, hrest⟩ := mem_evalWhere_cons.mp h
    have hfree1 : ∀ x, 2 + 14 * (i0 + 1) ≤ x → bfind b1 x = none := by
      intro x hx
      rw [eval_untouched hg1 ?hnv]
      · exact hfree x (by omega)
      case hnv =>
        intro hmem
        rcases mem_clauseVars_groupClause hmem with h' | h' | h' <;> omega
    rw [mkGroupsAux] at hg
    rcases List.mem_cons.mp hg with rfl | hgtail
    · -- the head group: transfer its output through the remaining clauses
      have hout1 := group_sound huniq (hfree _ (by omega)) hg1
      refine groupOut_mono hout1 (evalWhere_ext hrest) ?_
      apply evalWhere_untouched hrest
      intro cla hcla
      rw [List.mem_map] at hcla
      obtain ⟨g', hg', rfl⟩ := hcla
      obtain ⟨k, n', hk, rfl⟩ := mem_mkGroupsAux hg'
      intro hmem
      rcases mem_clauseVars_groupClause hmem with h' | h' | h' <;>
        simp only [mkGroup] at h' ⊢ <;> omega
    · exact ih (i0 + 1) b1 bf hrest hfree1 g hgtail

theorem mem_evalWhere_append {idx : List Fact} {l1 l2 : List Clause} {b bf : Bindings} :
    bf ∈ evalWhere idx (l1 ++ l2) b ↔
      ∃ bm ∈ evalWhere idx l1 b, bf ∈ evalWhere idx l2 bm := by
  induction l1 generalizing b with
  | nil =>
    simp only [List.nil_append]
    constructor
    · intro h; exact ⟨b, mem_evalWhere_nil.mpr rfl, h⟩
    · rintro ⟨bm, hm, h⟩
      rw [mem_evalWhere_nil.mp hm] at h
      exact h
  | cons c rest ih =>
    simp only [List.cons_append, mem_evalWhere_cons, ih]
    constructor
    · rintro ⟨b1, h1, bm, hm, h⟩
      exact ⟨bm, ⟨b1, h1, hm⟩, h⟩
    · rintro ⟨bm, ⟨b1, h1, hm⟩, h⟩
      exact ⟨b1, h1, bm, hm, h⟩

theorem mem_find {ds : List Delegation} {sel : Selector} {auth : Authorization} :
    auth ∈ find ds sel ↔
      ∃ bf ∈ evalWhere (buildIndex ds) (whereClauses sel (mkGroups sel.can)) [],
        toAuth (mkGroups sel.can) bf = auth := by
  rw [find]
  rw [List.mem_dedup, List.mem_map]

theorem entries_of_groups {ds : List Delegation} {t : Int} {bf : Bindings} :
    ∀ gs : List ProofGroup, (∀ g ∈ gs, groupOut ds t g bf) →
      ∃ entries : List (Delegation × Option Delegation),
        gs.flatMap (groupProofs bf) = entries.flatMap
          (fun e => e.1.cid :: (match e.2 with | some a => [a.cid] | none => [])) ∧
        ∀ e ∈ entries,
          e.1 ∈ ds ∧ unexpired e.1 t = true ∧
          bfind bf 1 = some (.str e.1.audience) ∧
          (∀ a, e.2 = some a → a ∈ ds ∧ a.audience = e.1.audience ∧ unexpired a t = true ∧
            ∃ (j : Nat) (c : Capability), a.capabilities[j]? = some c ∧
              c.can = "ucan/attest" ∧ ("proof", Val.del e.1.cid) ∈ c.nb) ∧
          (mailtoIssuer e.1 = true → e.2.isSome = true) := by
  intro gs
  induction gs with
  | nil => exact fun _ => ⟨[], rfl, by simp⟩
  | cons g rest ih =>
    intro hall
    obtain ⟨entries, heq, hprop⟩ := ih fun g' hg' => hall g' (List.mem_cons_of_mem _ hg')
    obtain ⟨pd, hpd, h1, h2, h3, h4, -, h5⟩ := hall g (List.mem_cons_self g rest)
    rcases h5 with ⟨hnone, hmfalse⟩ | ⟨ad, had, ha1, ha2, ha3, j, c, hj, hc1, hc2⟩
    · refine ⟨(pd, none) :: entries, ?_, ?_⟩
      · rw [List.flatMap_cons, List.flatMap_cons, heq]
        simp [groupProofs, h1, hnone]
      · intro e he
        rcases List.mem_cons.mp he with rfl | he'
        · refine ⟨hpd, h4, h3, by simp, ?_⟩
          intro hm
          rw [hmfalse] at hm
          exact Bool.noConfusion hm
        · exact hprop e he'
    · refine ⟨(pd, some ad) :: entries, ?_, ?_⟩
      · rw [List.flatMap_cons, List.flatMap_cons, heq]
        simp [groupProofs, h1, ha1]
      · intro e he
        rcases List.mem_cons.mp he with rfl | he'
        · refine ⟨hpd, h4, h3, ?_, by simp⟩
          intro a ha
          have haa : ad = a := by injection ha
          rw [← haa]
          exact ⟨had, ha2, ha3, j, c, hj, hc1, hc2⟩
        · exact hprop e he'

/-! ## Claim C1 -/

/-- Soundness core shared by the claims about `find`. -/
theorem query_sound_entries (ds : List Delegation) (sel : Selector)
    (huniq : UniqueCids ds) :
    ∀ auth ∈ find ds sel,
      (∀ cid ∈ auth.proofs, ∃ d ∈ ds, d.cid = cid ∧ unexpired d sel.time = true) ∧
      ∃ entries : List (Delegation × Option Delegation),
        auth.proofs = entries.flatMap
          (fun e => e.1.cid :: (match e.2 with | some a => [a.cid] | none => [])) ∧
        ∀ e ∈ entries,
          e.1 ∈ ds ∧ unexpired e.1 sel.time = true ∧
          (∀ a, e.2 = some a → a ∈ ds ∧ attestsFor a e.1.cid auth.authority sel.time) ∧
          (mailtoIssuer e.1 = true → e.2.isSome = true) := by
  intro auth hauth
  obtain ⟨bf, hbf, hta⟩ := mem_find.mp hauth
  rw [whereClauses] at hbf
  obtain ⟨bm, hbm, htext⟩ := mem_evalWhere_append.mp hbf
  rw [mkGroups_eq_aux] at hbm
  have hgall := evalWhere_groups_sound huniq (needsOf sel.can) 0 [] bm hbm
    (fun x _ => rfl)
  have hgallf : ∀ g ∈ mkGroupsAux 0 (needsOf sel.can), groupOut ds sel.time g bf := by
    intro g hg
    refine groupOut_mono (hgall g hg) (evalWhere_ext htext) ?_
    apply evalWhere_untouched htext
    intro cla hcla hmem
    obtain ⟨k, n', hk, hgk⟩ := mem_mkGroupsAux hg
    have hattid : g.attestation = 2 + 14 * (0 + k) + 3 := by rw [hgk]; rfl
    rcases List.mem_cons.mp hcla with rfl | hcla'
    · have h0 := mem_clauseVars_textMatch hmem
      omega
    · rcases List.mem_cons.mp hcla' with rfl | hcla''
      · have h0 := mem_clauseVars_textMatch hmem
        omega
      · exact absurd hcla'' (List.not_mem_nil _)
  have hgall2 : ∀ g ∈ mkGroups sel.can, groupOut ds sel.time g bf := by
    rw [mkGroups_eq_aux]
    exact hgallf
  obtain ⟨entries, heq, hprop⟩ := entries_of_groups (mkGroups sel.can) hgall2
  have hproofs : auth.proofs = entries.flatMap
      (fun e => e.1.cid :: (match e.2 with | some a => [a.cid] | none => [])) := by
    rw [← hta]
    exact heq
  constructor
  · intro cid hcid
    rw [hproofs] at hcid
    obtain ⟨e, he, hcide⟩ := List.mem_flatMap.mp hcid
    obtain ⟨h1, h2, h3, h4, h5⟩ := hprop e he
    rcases List.mem_cons.mp hcide with rfl | hcide'
    · exact ⟨e.1, h1, rfl, h2⟩
    · cases he2 : e.2 with
      | none =>
        rw [he2] at hcide'
        exact absurd hcide' (List.not_mem_nil _)
      | some a =>
        rw [he2] at hcide'
        have hca : cid = a.cid := List.mem_singleton.mp hcide'
        obtain ⟨hads, haud, hexp, -⟩ := h4 a he2
        exact ⟨a, hads, hca.symm, hexp⟩
  · refine ⟨entries, hproofs, ?_⟩
    intro e he
    obtain ⟨h1, h2, h3, h4, h5⟩ := hprop e he
    refine ⟨h1, h2, ?_, h5⟩
    intro a ha
    obtain ⟨hads, haud, hexp, j, c, hj, hc1, hc2⟩ := h4 a ha
    refine ⟨hads, ?_, hexp, j, c, hj, hc1, hc2⟩
    have hauth2 : auth.authority = e.1.audience := by
      rw [← hta]
      show (match bfind bf 1 with
        | some (.str s) => s
        | _ => "") = e.1.audience
      rw [h3]
    rw [hauth2]
    exact haud

/-- C1 (amended): soundness of `query` — every Authorization record it
returns decomposes into per-ability entries of a cited proof and an
optional cited attestation; every cited proof or attestation refers to a
delegation of the set that is unexpired at the query time; and every
entry whose proof's issuer DID matches `did:mailto:*` carries a matching
attestation (capability `ucan/attest`, `nb.proof` naming that proof,
audience equal to the requester, itself unexpired).  The mailto
obligation applies to the proofs selected by the per-ability proof
variables; the attestations cited alongside them are required to be
unexpired but are not themselves subject to it (see the
counterexample). -/
theorem claim1_query_soundness (ds : List Delegation) (sel : Selector)
    (huniq : UniqueCids ds) :
    ∀ auth ∈ find ds sel,
      (∀ cid ∈ auth.proofs, ∃ d ∈ ds, d.cid = cid ∧ unexpired d sel.time = true) ∧
      ∃ entries : List (Delegation × Option Delegation),
        auth.proofs = entries.flatMap
          (fun e => e.1.cid :: (match e.2 with | some a => [a.cid] | none => [])) ∧
        ∀ e ∈ entries,
          e.1 ∈ ds ∧ unexpired e.1 sel.time = true ∧
          (∀ a, e.2 = some a → a ∈ ds ∧ attestsFor a e.1.cid auth.authority sel.time) ∧
          (mailtoIssuer e.1 = true → e.2.isSome = true) :=
  query_sound_entries ds sel huniq

/-! ## Completeness building blocks -/

theorem unify_const_eq {b : Bindings} {c v : Val} (h : c = v) :
    unify b (.const c) v = some b := by
  simp [unify_const, h]

theorem extend_bound {b : Bindings} {x : Nat} {v : Val} (h : bfind b x = some v) :
    extend b x v = b := by
  simp [extend, h]

theorem unify_var_of_bound {b : Bindings} {x : Nat} {v : Val}
    (h : bfind b x = some v) : unify b (.var x) v = some b := by
  simp [unify_var, h]

theorem fact_complete {idx : List Fact} {e : Term} {a : Attr} {v : Term}
    {b b1 b2 : Bindings} (f : Fact) (hf : f ∈ idx) (ha : f.attr = a)
    (h1 : unify b e f.entity = some b1) (h2 : unify b1 v f.value = some b2) :
    b2 ∈ evalClause idx (.fact e a v) b :=
  mem_eval_fact.mpr ⟨f, hf, ha, b1, h1, h2⟩

theorem and_complete {idx : List Fact} {x y : Clause} {b bm b' : Bindings}
    (h1 : bm ∈ evalClause idx x b) (h2 : b' ∈ evalClause idx y bm) :
    b' ∈ evalClause idx (.and x y) b :=
  mem_eval_and.mpr ⟨bm, h1, h2⟩

theorem gte_complete {idx : List Fact} {x y : Term} {b : Bindings} {a c : Val}
    (hx : resolve b x = some a) (hy : resolve b y = some c) (h : valGte a c = true) :
    b ∈ evalClause idx (.gte x y) b :=
  mem_eval_gte.mpr ⟨rfl, a, c, hx, hy, h⟩

theorem glob_complete {idx : List Fact} {s p : Term} {b : Bindings} {sv pv : String}
    (hs : resolve b s = some (.str sv)) (hp : resolve b p = some (.str pv))
    (h : globStr pv sv = true) :
    b ∈ evalClause idx (.glob s p) b :=
  mem_eval_glob.mpr ⟨rfl, sv, pv, hs, hp, h⟩

theorem groupClause_complete {ds : List Delegation} {d : Delegation} {j : Nat}
    {c : Capability} {t : Int} {i : Nat} {n : Option String} {b0 : Bindings}
    (hd : d ∈ ds) (hj : d.capabilities[j]? = some c)
    (hexp : unexpired d t = true) (hmail : mailtoIssuer d = false)
    (hneed : ∀ s, n = some s → globStr c.can s = true)
    (h0 : bfind b0 0 = none ∨ bfind b0 0 = some (.str c.cwith))
    (h1 : bfind b0 1 = none ∨ bfind b0 1 = some (.str d.audience))
    (hfree : ∀ x, 2 + 14 * i ≤ x → x < 2 + 14 * i + 14 → bfind b0 x = none) :
    ∃ b1 ∈ evalClause (buildIndex ds) (groupClause t (mkGroup i n)) b0,
      bfind b1 0 = some (.str c.cwith) ∧
      bfind b1 1 = some (.str d.audience) ∧
      bfind b1 (2 + 14 * i + 1) = some (.str c.can) ∧
      bfind b1 (2 + 14 * i + 2) = some (.del d.cid) ∧
      bfind b1 (2 + 14 * i + 3) = bfind b0 (2 + 14 * i + 3) ∧
      (∀ x, x ≠ 0 → x ≠ 1 → x ≠ 2 + 14 * i → x ≠ 2 + 14 * i + 1 →
        x ≠ 2 + 14 * i + 2 → x ≠ 2 + 14 * i + 4 → x ≠ 2 + 14 * i + 5 →
        bfind b1 x = bfind b0 x) := by
  set B := 2 + 14 * i with hB
  set c1 := extend b0 (B + 4) (.cap d.cid j) with hc1
  set c2 := extend c1 (B + 1) (.str c.can) with hc2
  set c3 := extend c2 0 (.str c.cwith) with hc3
  set c4 := extend c3 (B + 2) (.del d.cid) with hc4
  set c5 := extend c4 1 (.str d.audience) with hc5
  set c6 := extend c5 B (.str d.issuer) with hc6
  set c7 := extend c6 (B + 5) (expVal d.expiration) with hc7
  have n1 : bfind b0 (B + 4) = none := hfree _ (by omega) (by omega)
  have hC1at4 : bfind c1 (B + 4) = some (.cap d.cid j) := bfind_extend_self (Or.inl n1)
  have n2 : bfind c1 (B + 1) = none := by
    rw [hc1, bfind_extend_other (by omega)]
    exact hfree _ (by omega) (by omega)
  have hC2at4 : bfind c2 (B + 4) = some (.cap d.cid j) := by
    rw [hc2, bfind_extend_other (by omega)]
    exact hC1at4
  have hC2can : bfind c2 (B + 1) = some (.str c.can) := bfind_extend_self (Or.inl n2)
  have h0' : bfind c2 0 = none ∨ bfind c2 0 = some (.str c.cwith) := by
    rw [hc2, bfind_extend_other (by omega), hc1, bfind_extend_other (by omega)]
    exact h0
  have hC3at0 : bfind c3 0 = some (.str c.cwith) := bfind_extend_self h0'
  have hC3at4 : bfind c3 (B + 4) = some (.cap d.cid j) := by
    rw [hc3, bfind_extend_other (by omega)]
    exact hC2at4
  have n3 : bfind c3 (B + 2) = none := by
    rw [hc3, bfind_extend_other (by omega), hc2, bfind_extend_other (by omega),
      hc1, bfind_extend_other (by omega)]
    exact hfree _ (by omega) (by omega)
  have hC4atP : bfind c4 (B + 2) = some (.del d.cid) := bfind_extend_self (Or.inl n3)
  have hC4at4 : bfind c4 (B + 4) = some (.cap d.cid j) := by
    rw [hc4, bfind_extend_other (by omega)]
    exact hC3at4
  have h1' : bfind c4 1 = none ∨ bfind c4 1 = some (.str d.audience) := by
    rw [hc4, bfind_extend_other (by omega), hc3, bfind_extend_other (by omega),
      hc2, bfind_extend_other (by omega), hc1, bfind_extend_other (by omega)]
    exact h1
  have hC5at1 : bfind c5 1 = some (.str d.audience) := bfind_extend_self h1'
  have hC5atP : bfind c5 (B + 2) = some (.del d.cid) := by
    rw [hc5, bfind_extend_other (by omega)]
    exact hC4atP
  have n4 : bfind c5 B = none := by
    rw [hc5, bfind_extend_other (by omega), hc4, bfind_extend_other (by omega),
      hc3, bfind_extend_other (by omega), hc2, bfind_extend_other (by omega),
      hc1, bfind_extend_other (by omega)]
    exact hfree _ (by omega) (by omega)
  have hC6atB : bfind c6 B = some (.str d.issuer) := bfind_extend_self (Or.inl n4)
  have hC6atP : bfind c6 (B + 2) = some (.del d.cid) := by
    rw [hc6, bfind_extend_other (by omega)]
    exact hC5atP
  have n5 : bfind c6 (B + 5) = none := by
    rw [hc6, bfind_extend_other (by omega), hc5, bfind_extend_other (by omega),
      hc4, bfind_extend_other (by omega), hc3, bfind_extend_other (by omega),
      hc2, bfind_extend_other (by omega), hc1, bfind_extend_other (by omega)]
    exact hfree _ (by omega) (by omega)
  have hC7at5 : bfind c7 (B + 5) = some (expVal d.expiration) :=
    bfind_extend_self (Or.inl n5)
  have hC7at0 : bfind c7 0 = some (.str c.cwith) := by
    rw [hc7, bfind_extend_other (by omega), hc6, bfind_extend_other (by omega),
      hc5, bfind_extend_other (by omega), hc4, bfind_extend_other (by omega)]
    exact hC3at0
  have hC7at1 : bfind c7 1 = some (.str d.audience) := by
    rw [hc7, bfind_extend_other (by omega), hc6, bfind_extend_other (by omega)]
    exact hC5at1
  have hC7can : bfind c7 (B + 1) = some (.str c.can) := by
    rw [hc7, bfind_extend_other (by omega), hc6, bfind_extend_other (by omega),
      hc5, bfind_extend_other (by omega), hc4, bfind_extend_other (by omega),
      hc3, bfind_extend_other (by omega)]
    exact hC2can
  have hC7atP : bfind c7 (B + 2) = some (.del d.cid) := by
    rw [hc7, bfind_extend_other (by omega)]
    exact hC6atP
  have hC7atB : bfind c7 B = some (.str d.issuer) := by
    rw [hc7, bfind_extend_other (by omega)]
    exact hC6atB
  have hkeep : ∀ x, x ≠ 0 → x ≠ 1 → x ≠ B → x ≠ B + 1 → x ≠ B + 2 → x ≠ B + 4 →
      x ≠ B + 5 → bfind c7 x = bfind b0 x := by
    intro x hx0 hx1 hxB hxB1 hxB2 hxB4 hxB5
    rw [hc7, bfind_extend_other hxB5, hc6, bfind_extend_other hxB,
      hc5, bfind_extend_other hx1, hc4, bfind_extend_other hxB2,
      hc3, bfind_extend_other hx0, hc2, bfind_extend_other hxB1,
      hc1, bfind_extend_other hxB4]
  -- the unification steps
  have u1a : unify b0 (.var (B + 4)) (.cap d.cid j) = some c1 :=
    unify_extend (Or.inl n1)
  have u1b : unify c1 (.var (B + 1)) (.str c.can) = some c2 :=
    unify_extend (Or.inl n2)
  have u2a : unify c2 (.var (B + 4)) (.cap d.cid j) = some c2 :=
    unify_var_of_bound hC2at4
  have u2b : unify c2 (.var 0) (.str c.cwith) = some c3 :=
    unify_extend h0'
  have u3a : unify c3 (.var (B + 2)) (.del d.cid) = some c4 :=
    unify_extend (Or.inl n3)
  have u3b : unify c4 (.var (B + 4)) (.cap d.cid j) = some c4 :=
    unify_var_of_bound hC4at4
  have u4a : unify c4 (.var (B + 2)) (.del d.cid) = some c4 :=
    unify_var_of_bound hC4atP
  have u4b : unify c4 (.var 1) (.str d.audience) = some c5 :=
    unify_extend h1'
  have u5a : unify c5 (.var (B + 2)) (.del d.cid) = some c5 :=
    unify_var_of_bound hC5atP
  have u5b : unify c5 (.var B) (.str d.issuer) = some c6 :=
    unify_extend (Or.inl n4)
  have u6a : unify c6 (.var (B + 2)) (.del d.cid) = some c6 :=
    unify_var_of_bound hC6atP
  have u6b : unify c6 (.var (B + 5)) (expVal d.expiration) = some c7 :=
    unify_extend (Or.inl n5)
  -- the fact memberships
  have m1 : c2 ∈ evalClause (buildIndex ds)
      (.fact (.var (B + 4)) .capCan (.var (B + 1))) b0 :=
    fact_complete _ (capCan_mem_index hd hj) rfl u1a u1b
  have m2 : c3 ∈ evalClause (buildIndex ds)
      (.fact (.var (B + 4)) .capWith (.var 0)) c2 :=
    fact_complete _ (capWith_mem_index hd hj) rfl u2a u2b
  have m3 : c4 ∈ evalClause (buildIndex ds)
      (.fact (.var (B + 2)) .capability (.var (B + 4))) c3 :=
    fact_complete _ (capability_mem_index hd hj) rfl u3a u3b
  have m4 : c5 ∈ evalClause (buildIndex ds)
      (.fact (.var (B + 2)) .audience (.var 1)) c4 :=
    fact_complete _ (audience_mem_index hd) rfl u4a u4b
  have m5 : c6 ∈ evalClause (buildIndex ds)
      (.fact (.var (B + 2)) .issuer (.var B)) c5 :=
    fact_complete _ (issuer_mem_index hd) rfl u5a u5b
  have m6 : c7 ∈ evalClause (buildIndex ds)
      (.fact (.var (B + 2)) .expiration (.var (B + 5))) c6 :=
    fact_complete _ (expiration_mem_index hd) rfl u6a u6b
  have m7 : c7 ∈ evalClause (buildIndex ds)
      (.gte (.var (B + 5)) (.const (.int t))) c7 :=
    gte_complete hC7at5 rfl hexp
  have hmatch : c7 ∈ evalClause (buildIndex ds)
      (matchM (.var (B + 2)) (.var 1) (.var B) (.var 0) (.var (B + 1))
        (.const (.int t)) (B + 4)) b0 := by
    rw [matchM]
    apply mem_eval_or.mpr
    left
    rw [explicitM, capabilityMatch, delegationMatch]
    exact and_complete (and_complete m1 m2)
      (and_complete m3 (and_complete m4 (and_complete m5 (and_complete m6 m7))))
  have hempty : evalClause (buildIndex ds)
      (.glob (.var B) (.const (.str "did:mailto:*"))) c7 = [] := by
    rw [evalClause_glob]
    rw [show resolve c7 (.var B) = some (.str d.issuer) from hC7atB]
    show (if globStr "did:mailto:*" d.issuer = true then [c7] else []) = []
    rw [show globStr "did:mailto:*" d.issuer = mailtoIssuer d from rfl, hmail]
    simp
  have hattests : c7 ∈ evalClause (buildIndex ds)
      (.or (.not (.glob (.var B) (.const (.str "did:mailto:*"))))
        (attestationMatch (.var (B + 3)) (.var (B + 2)) (.var 1)
          (.const (.int t)) (B + 12))) c7 := by
    apply mem_eval_or.mpr
    left
    exact mem_eval_not.mpr ⟨rfl, hempty⟩
  have hmember : c7 ∈ evalClause (buildIndex ds) (groupClause t (mkGroup i n)) b0 := by
    rw [groupClause]
    cases n with
    | none => exact and_complete hmatch hattests
    | some need =>
      refine and_complete (and_complete hmatch ?_) hattests
      exact glob_complete rfl hC7can (hneed need rfl)
  exact ⟨c7, hmember, hC7at0, hC7at1, hC7can, hC7atP,
    hkeep _ (by omega) (by omega) (by omega) (by omega) (by omega) (by omega) (by omega),
    fun x hx0 hx1 hxB hxB1 hxB2 hxB4 hxB5 => hkeep x hx0 hx1 hxB hxB1 hxB2 hxB4 hxB5⟩

/-! ## Claim C3 -/

/-- C3 (amended): completeness for explicit grants — for every delegation
set containing a direct (subject-naming) grant of ability `A` from an
issuer whose DID does not match `did:mailto:*` to audience `X` on
subject `S`, unexpired at the query time, `query` with selector
`{audience: X, can: {A: []}}` returns an Authorization whose subject is
`S` and whose proofs include that grant.  (The non-mailto condition is
forced by the attestation gate: see the counterexample.) -/
theorem claim3_explicit_completeness (ds : List Delegation) (d : Delegation)
    (j : Nat) (c : Capability) (X S A : String) (t : Int)
    (hd : d ∈ ds) (hj : d.capabilities[j]? = some c)
    (hcan : c.can = A) (hwith : c.cwith = S) (haud : d.audience = X)
    (hexp : unexpired d t = true) (hmail : mailtoIssuer d = false) :
    ∃ auth ∈ find ds ⟨.exact X, [A], none, t⟩,
      auth.subject = S ∧ d.cid ∈ auth.proofs := by
  have hneed : ∀ s, (some A : Option String) = some s → globStr c.can s = true := by
    intro s hs
    have hsa : A = s := by injection hs
    rw [← hsa, hcan]
    exact globStr_refl A
  obtain ⟨b1, hb1, hv0, hv1, hvcan, hvP, hvatt, hkeep⟩ :=
    @groupClause_complete ds d j c t 0 (some A) []
      hd hj hexp hmail hneed (Or.inl rfl) (Or.inl rfl) (fun x _ _ => rfl)
  have ht1 : b1 ∈ evalClause (buildIndex ds)
      (textMatch (.var 0) ((none : Option TextConstraint).getD (.like "*"))) b1 := by
    show b1 ∈ evalClause (buildIndex ds) (.glob (.var 0) (.const (.str "*"))) b1
    exact glob_complete hv0 rfl (globStr_star c.cwith)
  have ht2 : b1 ∈ evalClause (buildIndex ds) (textMatch (.var 1) (.exact X)) b1 := by
    show b1 ∈ evalClause (buildIndex ds) (.is (.var 1) (.str X)) b1
    apply mem_eval_is.mpr
    apply unify_var_of_bound
    rw [hv1, haud]
  have hwhere : b1 ∈ evalWhere (buildIndex ds)
      (whereClauses ⟨.exact X, [A], none, t⟩ (mkGroups [A])) [] := by
    show b1 ∈ evalWhere (buildIndex ds)
      [groupClause t (mkGroup 0 (some A)),
       textMatch (.var 0) ((none : Option TextConstraint).getD (.like "*")),
       textMatch (.var 1) (.exact X)] []
    exact mem_evalWhere_cons.mpr ⟨b1, hb1,
      mem_evalWhere_cons.mpr ⟨b1, ht1,
        mem_evalWhere_cons.mpr ⟨b1, ht2, mem_evalWhere_nil.mpr rfl⟩⟩⟩
  refine ⟨toAuth (mkGroups [A]) b1, mem_find.mpr ⟨b1, hwhere, rfl⟩, ?_, ?_⟩
  · show (match bfind b1 0 with
      | some (.str s) => s
      | _ => "") = S
    rw [hv0, hwith]
  · show d.cid ∈ (mkGroups [A]).flatMap (groupProofs b1)
    show d.cid ∈ groupProofs b1 (mkGroup 0 (some A)) ++ []
    rw [List.append_nil]
    rw [groupProofs]
    have hP : bfind b1 (mkGroup 0 (some A)).proof = some (.del d.cid) := hvP
    rw [hP]
    simp

/-- C1 (counterexample to the unamended claim): the query accepts an
attestation issued by a `did:mailto:` principal and cites it among the
proofs without requiring an attestation for it — so not every cited
proof with a mailto issuer is accompanied by a matching attestation. -/
theorem claim1_counterexample :
    ∃ auth ∈ find [mailtoProof, mailtoAttestation] agentSelector,
      ∃ cid ∈ auth.proofs,
        (∃ d ∈ [mailtoProof, mailtoAttestation], d.cid = cid ∧ mailtoIssuer d = true) ∧
        ¬∃ a ∈ [mailtoProof, mailtoAttestation], a.cid ∈ auth.proofs ∧
          attestsFor a cid auth.authority agentSelector.time := by
  decide

/-- C1 witness: the soundness theorem applied to a concrete delegation
set. -/
theorem claim1_witness :
    UniqueCids [mailtoProof, mailtoAttestation] ∧
    ∀ auth ∈ find [mailtoProof, mailtoAttestation] agentSelector,
      (∀ cid ∈ auth.proofs, ∃ d ∈ [mailtoProof, mailtoAttestation], d.cid = cid ∧
        unexpired d agentSelector.time = true) ∧
      ∃ entries : List (Delegation × Option Delegation),
        auth.proofs = entries.flatMap
          (fun e => e.1.cid :: (match e.2 with | some a => [a.cid] | none => [])) ∧
        ∀ e ∈ entries,
          e.1 ∈ [mailtoProof, mailtoAttestation] ∧ unexpired e.1 agentSelector.time = true ∧
          (∀ a, e.2 = some a → a ∈ [mailtoProof, mailtoAttestation] ∧
            attestsFor a e.1.cid auth.authority agentSelector.time) ∧
          (mailtoIssuer e.1 = true → e.2.isSome = true) :=
  ⟨by decide, claim1_query_soundness [mailtoProof, mailtoAttestation] agentSelector (by decide)⟩

/-- C3 (counterexample to the unamended claim): a delegation set
containing an unexpired direct grant of `store/add` on the space — but
issued by a `did:mailto:` principal without an attestation — yields no
Authorization citing it. -/
theorem claim3_counterexample :
    ¬∃ auth ∈ find [mailtoGrant] ⟨.exact "did:key:agent", ["store/add"], none, 0⟩,
      auth.subject = "did:key:space" ∧ mailtoGrant.cid ∈ auth.proofs := by
  decide

/-- C3 witness: the completeness theorem applied to a concrete grant. -/
theorem claim3_witness :
    ∃ auth ∈ find [plainGrant] ⟨.exact "did:key:agent", ["store/add"], none, 0⟩,
      auth.subject = "did:key:space" ∧ plainGrant.cid ∈ auth.proofs :=
  claim3_explicit_completeness [plainGrant] plainGrant 0
    ⟨"store/add", "did:key:space", []⟩ "did:key:agent" "did:key:space" "store/add" 0
    (by decide) (by decide) rfl rfl rfl (by decide) (by decide)

/-! ## Claims C7, C8, C9, C10 -/

theorem kvGet_kvPut (kv : KV) (k : String) (v : List String) :
    kvGet (kvPut kv k v) k = some v := by
  induction kv with
  | nil => simp [kvPut, kvGet]
  | cons e rest ih =>
    obtain ⟨k', v'⟩ := e
    rw [kvPut]
    by_cases h : k' = k
    · rw [if_pos h]
      simp [kvGet]
    · rw [if_neg h]
      rw [kvGet, if_neg h]
      exact ih

/-- C7 (counterexample to the unamended claim): when the stored CAR
decodes to two delegations, the read path throws a plain `Error` — not
an `UnexpectedDelegation`-named error — and returns no delegation. -/
theorem claim7_counterexample :
    rowToDelegation carBucket twoDecode "1" =
      .error ⟨"Error", "expected 1 delegation in CAR, but got 2"⟩ ∧
    "Error" ≠ "UnexpectedDelegation" := by
  constructor
  · rfl
  · decide

/-- C7 (amended): when the stored bytes for a referenced delegation
decode to a number of delegations other than exactly one, the read path
(`#rowToDelegation`) fails with a thrown error — a plain `Error` whose
message reports the count, not an `UnexpectedDelegation`-kind error —
rather than returning a partial result. -/
theorem claim7_decode_count_error (dags : Bucket) (dec : Bytes → List Delegation)
    (cid : String) (bs : Bytes)
    (hget : bucketGet dags (carFileKeyer cid) = some bs)
    (hlen : (dec bs).length ≠ 1) :
    rowToDelegation dags dec cid =
      .error ⟨"Error", "expected 1 delegation in CAR, but got " ++
        toString (dec bs).length⟩ := by
  cases hdec : dec bs with
  | nil => simp only [rowToDelegation, hget, hdec]
  | cons d rest =>
    cases rest with
    | nil =>
      exact absurd (by rw [hdec]; rfl) hlen
    | cons d2 rest2 =>
      simp only [rowToDelegation, hget, hdec]

/-- C7 witness: the amended theorem applied to the concrete bucket. -/
theorem claim7_witness :
    rowToDelegation carBucket twoDecode "1" =
      .error ⟨"Error", "expected 1 delegation in CAR, but got " ++
        toString (twoDecode [0]).length⟩ :=
  claim7_decode_count_error carBucket twoDecode "1" [0] rfl (by decide)

/-- C8: when the backing database cannot stream, the streaming iterator
fails immediately with an error named `NotImplementedError` and yields
no delegations. -/
theorem claim8_stream_not_implemented (db : StreamDB) (dags : Bucket)
    (dec : Bytes → List Delegation) (h : db.canStream = false) :
    streamAll db dags dec =
      .error ⟨"NotImplementedError",
        "cannot create asyncIterator because the underlying database does not support streaming"⟩ := by
  rw [streamAll, h]
  rfl

/-- C8 witness: the theorem applied to a concrete non-streaming store. -/
theorem claim8_witness :
    streamAll ⟨false, ["1"]⟩ carBucket twoDecode =
      .error ⟨"NotImplementedError",
        "cannot create asyncIterator because the underlying database does not support streaming"⟩ :=
  claim8_stream_not_implemented ⟨false, ["1"]⟩ carBucket twoDecode rfl

/-- C9: `putMany` with an empty sequence of delegations is a complete
no-op — it returns without touching the DAG bucket or the delegations
table. -/
theorem claim9_putMany_empty (encode : List Delegation → Bytes) (st : StoreState) :
    putMany encode st [] = st ∧
    (putMany encode st []).dags = st.dags ∧
    (putMany encode st []).table = st.table := by
  refine ⟨rfl, rfl, rfl⟩

/-- C10: `saveDelegation` appends the encoded delegation to the stored
list for the email (starting from the empty list when none was stored),
so no previously saved delegation for that email is dropped. -/
theorem claim10_saveDelegation_appends (encode : Delegation → String) (kv : KV)
    (email : String) (d : Delegation) :
    getDelegations (saveDelegation encode kv email d) email =
      some ((getDelegations kv email).getD [] ++ [encode d]) := by
  rw [saveDelegation, getDelegations, getDelegations]
  cases h : kvGet kv email with
  | some accs =>
    rw [kvGet_kvPut]
    simp
  | none =>
    rw [kvGet_kvPut]
    simp

/-! ## Claim C6 -/

theorem mkGroupsFrom_length : ∀ (l : List String) (g : Nat),
    (mkGroupsFrom g l).length = l.length := by
  intro l
  induction l with
  | nil => intro g; rfl
  | cons n rest ih =>
    intro g
    rw [mkGroupsFrom, List.length_cons, List.length_cons, ih]

theorem mkGroupsFrom_getElem : ∀ (l : List String) (g i : Nat) (need : String),
    l[i]? = some need →
    (mkGroupsFrom g l)[i]? = some (mkGroup (g + i) (some need)) := by
  intro l
  induction l with
  | nil => intro g i need h; simp at h
  | cons n rest ih =>
    intro g i need h
    cases i with
    | zero =>
      simp only [List.getElem?_cons_zero, Option.some.injEq] at h
      rw [mkGroupsFrom]
      simp [h]
    | succ i' =>
      simp only [List.getElem?_cons_succ] at h
      rw [mkGroupsFrom]
      rw [List.getElem?_cons_succ]
      rw [ih (g + 1) i' need h]
      have harith : g + 1 + i' = g + (i' + 1) := by omega
      rw [harith]

/-- C6: an empty (or omitted) `can` mapping makes `query` build exactly
one proof-variable group with no ability constraint — its clause is the
bare `match` conjoined with the attestation disjunction, with no
requested-ability glob; a mapping naming `k ≥ 1` abilities builds
exactly `k` groups, the `i`-th carrying `need` equal to the `i`-th
ability and a clause additionally constrained by a glob of that ability
against the group's `can` variable. -/
theorem claim6_group_construction (t : Int) :
    ((mkGroups []).length = 1 ∧
      ∀ g ∈ mkGroups [], g.need = none ∧
        groupClause t g = .and
          (matchM (.var g.proof) (.var 1) (.var g.issuer) (.var 0) (.var g.can)
            (.const (.int t)) (g.base + 4))
          (.or (.not (.glob (.var g.issuer) (.const (.str "did:mailto:*"))))
            (attestationMatch (.var g.attestation) (.var g.proof) (.var 1)
              (.const (.int t)) (g.base + 12)))) ∧
    ∀ l : List String, l ≠ [] →
      (mkGroups l).length = l.length ∧
      ∀ (i : Nat) (need : String), l[i]? = some need →
        (mkGroups l)[i]? = some (mkGroup i (some need)) ∧
        groupClause t (mkGroup i (some need)) = .and
          (.and
            (matchM (.var (mkGroup i (some need)).proof) (.var 1)
              (.var (mkGroup i (some need)).issuer) (.var 0)
              (.var (mkGroup i (some need)).can) (.const (.int t))
              ((mkGroup i (some need)).base + 4))
            (.glob (.const (.str need)) (.var (mkGroup i (some need)).can)))
          (.or (.not (.glob (.var (mkGroup i (some need)).issuer)
              (.const (.str "did:mailto:*"))))
            (attestationMatch (.var (mkGroup i (some need)).attestation)
              (.var (mkGroup i (some need)).proof) (.var 1)
              (.const (.int t)) ((mkGroup i (some need)).base + 12))) := by
  refine ⟨⟨rfl, ?_⟩, ?_⟩
  · intro g hg
    have hg' : g = mkGroup 0 none := by
      simpa [mkGroups] using hg
    rw [hg']
    exact ⟨rfl, rfl⟩
  · intro l hl
    cases l with
    | nil => exact absurd rfl hl
    | cons n rest =>
      refine ⟨?_, ?_⟩
      · rw [show mkGroups (n :: rest) = mkGroupsFrom 0 (n :: rest) from rfl]
        exact mkGroupsFrom_length (n :: rest) 0
      · intro i need hi
        refine ⟨?_, rfl⟩
        rw [show mkGroups (n :: rest) = mkGroupsFrom 0 (n :: rest) from rfl]
        have h := mkGroupsFrom_getElem (n :: rest) 0 i need hi
        rw [Nat.zero_add] at h
        exact h

/-- C6 witness: the construction theorem applied to concrete ability
lists. -/
theorem claim6_witness :
    (mkGroups []).length = 1 ∧
    (mkGroups ["store/add", "store/remove"]).length = 2 ∧
    (mkGroups ["store/add", "store/remove"])[1]? =
      some (mkGroup 1 (some "store/remove")) := by
  refine ⟨(claim6_group_construction 0).1.1, ?_, ?_⟩
  · exact ((claim6_group_construction 0).2 ["store/add", "store/remove"]
      (by decide)).1
  · exact (((claim6_group_construction 0).2 ["store/add", "store/remove"]
      (by decide)).2 1 "store/remove" (by decide)).1

/-! ## Claim C5 -/

theorem matchM_accepts {ds : List Delegation} {d : Delegation} {j : Nat}
    {c : Capability} {t : Int}
    (hd : d ∈ ds) (hj : d.capabilities[j]? = some c) (hexp : unexpired d t = true) :
    ∃ b' ∈ evalClause (buildIndex ds)
      (matchM (.var 0) (.var 1) (.var 2) (.var 3) (.var 4) (.const (.int t)) 5) [],
      bfind b' 0 = some (.del d.cid) := by
  set i1 : Bindings := [(5, Val.cap d.cid j)] with hi1
  set i2 : Bindings := (4, Val.str c.can) :: i1 with hi2
  set i3 : Bindings := (3, Val.str c.cwith) :: i2 with hi3
  set i4 : Bindings := (0, Val.del d.cid) :: i3 with hi4
  set i5 : Bindings := (1, Val.str d.audience) :: i4 with hi5
  set i6 : Bindings := (2, Val.str d.issuer) :: i5 with hi6
  set i7 : Bindings := (6, expVal d.expiration) :: i6 with hi7
  have u1a : unify [] (.var 5) (Val.cap d.cid j) = some i1 := rfl
  have u1b : unify i1 (.var 4) (Val.str c.can) = some i2 := rfl
  have u2a : unify i2 (.var 5) (Val.cap d.cid j) = some i2 :=
    unify_var_of_bound rfl
  have u2b : unify i2 (.var 3) (Val.str c.cwith) = some i3 := rfl
  have u3a : unify i3 (.var 0) (Val.del d.cid) = some i4 := rfl
  have u3b : unify i4 (.var 5) (Val.cap d.cid j) = some i4 :=
    unify_var_of_bound rfl
  have u4a : unify i4 (.var 0) (Val.del d.cid) = some i4 :=
    unify_var_of_bound rfl
  have u4b : unify i4 (.var 1) (Val.str d.audience) = some i5 := rfl
  have u5a : unify i5 (.var 0) (Val.del d.cid) = some i5 :=
    unify_var_of_bound rfl
  have u5b : unify i5 (.var 2) (Val.str d.issuer) = some i6 := rfl
  have u6a : unify i6 (.var 0) (Val.del d.cid) = some i6 :=
    unify_var_of_bound rfl
  have u6b : unify i6 (.var 6) (expVal d.expiration) = some i7 := rfl
  refine ⟨i7, ?_, rfl⟩
  rw [matchM]
  apply mem_eval_or.mpr
  left
  rw [explicitM, capabilityMatch, delegationMatch]
  exact and_complete (and_complete
      (fact_complete _ (capCan_mem_index hd hj) rfl u1a u1b)
      (fact_complete _ (capWith_mem_index hd hj) rfl u2a u2b))
    (and_complete (fact_complete _ (capability_mem_index hd hj) rfl u3a u3b)
      (and_complete (fact_complete _ (audience_mem_index hd) rfl u4a u4b)
        (and_complete (fact_complete _ (issuer_mem_index hd) rfl u5a u5b)
          (and_complete (fact_complete _ (expiration_mem_index hd) rfl u6a u6b)
            (gte_complete rfl rfl hexp)))))

/-- C5: expiration boundary — a delegation (with at least one
capability) is accepted by the `match` clause if and only if its
projected expiration passes the closed `expiration >= time` filter; for
a finite expiration `t'` that filter holds exactly when `time ≤ t'`
(so the proof matches at `time ≤ t'` and not at `time > t'`); a
delegation with no expiration passes for every query time; and a
delegation failing the filter is never cited by any Authorization
`query` returns. -/
theorem claim5_expiration_boundary (d : Delegation) (time : Int)
    (hcap : d.capabilities ≠ []) :
    ((∃ b' ∈ evalClause (buildIndex [d])
        (matchM (.var 0) (.var 1) (.var 2) (.var 3) (.var 4)
          (.const (.int time)) 5) [],
        bfind b' 0 = some (.del d.cid)) ↔
      valGte (expVal d.expiration) (.int time) = true) ∧
    (∀ t', d.expiration = some t' →
      (valGte (expVal d.expiration) (.int time) = true ↔ time ≤ t')) ∧
    (d.expiration = none → valGte (expVal d.expiration) (.int time) = true) ∧
    (∀ (ds : List Delegation) (sel : Selector), UniqueCids ds → d ∈ ds →
      sel.time = time → valGte (expVal d.expiration) (.int time) = false →
      ∀ auth ∈ find ds sel, d.cid ∉ auth.proofs) := by
  have huniq1 : UniqueCids [d] := by
    intro d1 h1 d2 h2 _
    rw [List.mem_singleton] at h1 h2
    rw [h1, h2]
  refine ⟨⟨?_, ?_⟩, ?_, ?_, ?_⟩
  · rintro ⟨b', hb', hb0⟩
    obtain ⟨d', hd', rdT, -, -, -, hexp⟩ := matchPkg_core (matchM_sound huniq1 hb')
    rw [List.mem_singleton] at hd'
    rw [hd'] at hexp
    exact hexp
  · intro hexp
    cases hc : d.capabilities with
    | nil => exact absurd hc hcap
    | cons c rest =>
      have hj : d.capabilities[0]? = some c := by rw [hc]; simp
      exact matchM_accepts (List.mem_singleton.mpr rfl) hj hexp
  · intro t' ht'
    rw [ht']
    show valGte (.int t') (.int time) = true ↔ time ≤ t'
    simp [valGte]
  · intro hnone
    rw [hnone]
    rfl
  · intro ds sel huniq hd hts hvf auth hauth hmem
    obtain ⟨hall, -⟩ := query_sound_entries ds sel huniq auth hauth
    obtain ⟨d', hd', hcid, hexp⟩ := hall d.cid hmem
    have hdd : d' = d := uniq_cid huniq hd' hd hcid
    rw [hdd] at hexp
    rw [unexpired, hts, hvf] at hexp
    exact Bool.noConfusion hexp

/-- C5 witness: the boundary theorem applied to a concrete non-expiring
grant. -/
theorem claim5_witness :
    plainGrant.capabilities ≠ [] ∧
    ((∃ b' ∈ evalClause (buildIndex [plainGrant])
        (matchM (.var 0) (.var 1) (.var 2) (.var 3) (.var 4)
          (.const (.int 0)) 5) [],
        bfind b' 0 = some (.del plainGrant.cid)) ↔
      valGte (expVal plainGrant.expiration) (.int 0) = true) :=
  ⟨by decide, (claim5_expiration_boundary plainGrant 0 (by decide)).1⟩

/-! ## Claim C2 -/

theorem implicitM_accepts_issuer {ds : List Delegation} {d : Delegation} {j : Nat}
    {c : Capability} {X S A : String} {t : Int}
    (hd : d ∈ ds) (hj : d.capabilities[j]? = some c)
    (hcan : c.can = A) (hwith : c.cwith = "ucan:*") (haud : d.audience = X)
    (hiss : d.issuer = S) (hexp : unexpired d t = true) :
    ∃ b' ∈ evalClause (buildIndex ds)
      (implicitM (.var 0) (.const (.str X)) (.var 1) (.const (.str S))
        (.const (.str A)) (.const (.int t)) 2) [],
      bfind b' 0 = some (.del d.cid) := by
  set k1 : Bindings := [(0, Val.del d.cid)] with hk1
  set k2 : Bindings := (3, Val.cap d.cid j) :: k1 with hk2
  set k3 : Bindings := (1, Val.str d.issuer) :: k2 with hk3
  set k4 : Bindings := (4, expVal d.expiration) :: k3 with hk4
  have u1a : unify [] (.var 0) (Val.del d.cid) = some k1 := rfl
  have u1b : unify k1 (.var 3) (Val.cap d.cid j) = some k2 := rfl
  have u2a : unify k2 (.var 3) (Val.cap d.cid j) = some k2 := unify_var_of_bound rfl
  have u2b : unify k2 (.const (.str A)) (Val.str c.can) = some k2 :=
    unify_const_eq (by rw [hcan])
  have u3b : unify k2 (.const (.str "ucan:*")) (Val.str c.cwith) = some k2 :=
    unify_const_eq (by rw [hwith])
  have u4a : unify k2 (.var 0) (Val.del d.cid) = some k2 := unify_var_of_bound rfl
  have u4b : unify k2 (.const (.str X)) (Val.str d.audience) = some k2 :=
    unify_const_eq (by rw [haud])
  have u5b : unify k2 (.var 1) (Val.str d.issuer) = some k3 := rfl
  have u6a : unify k3 (.var 0) (Val.del d.cid) = some k3 := unify_var_of_bound rfl
  have u6b : unify k3 (.var 4) (expVal d.expiration) = some k4 := rfl
  have u7a : unify k4 (.var 0) (Val.del d.cid) = some k4 := unify_var_of_bound rfl
  have u7b : unify k4 (.const (.str S)) (Val.str d.issuer) = some k4 :=
    unify_const_eq (by rw [hiss])
  refine ⟨k4, ?_, rfl⟩
  rw [implicitM]
  refine @and_complete _ _ _ _ k4 _ ?_ ?_
  · rw [forwards]
    exact and_complete (fact_complete _ (capability_mem_index hd hj) rfl u1a u1b)
      (and_complete (fact_complete _ (capCan_mem_index hd hj) rfl u2a u2b)
        (and_complete (fact_complete _ (capWith_mem_index hd hj) rfl u2a u3b)
          (and_complete (fact_complete _ (audience_mem_index hd) rfl u4a u4b)
            (and_complete (fact_complete _ (issuer_mem_index hd) rfl u4a u5b)
              (and_complete (fact_complete _ (expiration_mem_index hd) rfl u6a u6b)
                (gte_complete rfl rfl hexp))))))
  · apply mem_eval_or.mpr
    left
    rw [issuedBy]
    exact fact_complete _ (issuer_mem_index hd) rfl u7a u7b

theorem implicitM_accepts_proof {ds : List Delegation} {d p : Delegation}
    {jd jp : Nat} {cd cp : Capability} {X S A : String} {t : Int}
    (hd : d ∈ ds) (hp : p ∈ ds) (hplink : p.cid ∈ d.proofs)
    (hjd : d.capabilities[jd]? = some cd)
    (hcand : cd.can = A) (hwithd : cd.cwith = "ucan:*") (haud : d.audience = X)
    (hpaud : p.audience = d.issuer)
    (hjp : p.capabilities[jp]? = some cp)
    (hcanp : cp.can = A) (hwithp : cp.cwith = S)
    (hexp : unexpired d t = true) (hexpp : unexpired p t = true) :
    ∃ b' ∈ evalClause (buildIndex ds)
      (implicitM (.var 0) (.const (.str X)) (.var 1) (.const (.str S))
        (.const (.str A)) (.const (.int t)) 2) [],
      bfind b' 0 = some (.del d.cid) := by
  set k1 : Bindings := [(0, Val.del d.cid)] with hk1
  set k2 : Bindings := (3, Val.cap d.cid jd) :: k1 with hk2
  set k3 : Bindings := (1, Val.str d.issuer) :: k2 with hk3
  set k4 : Bindings := (4, expVal d.expiration) :: k3 with hk4
  set k5 : Bindings := (2, Val.del p.cid) :: k4 with hk5
  set k6 : Bindings := (6, Val.cap p.cid jp) :: k5 with hk6
  set k7 : Bindings := (5, Val.str p.issuer) :: k6 with hk7
  set k8 : Bindings := (7, expVal p.expiration) :: k7 with hk8
  have u1a : unify [] (.var 0) (Val.del d.cid) = some k1 := rfl
  have u1b : unify k1 (.var 3) (Val.cap d.cid jd) = some k2 := rfl
  have u2a : unify k2 (.var 3) (Val.cap d.cid jd) = some k2 := unify_var_of_bound rfl
  have u2b : unify k2 (.const (.str A)) (Val.str cd.can) = some k2 :=
    unify_const_eq (by rw [hcand])
  have u3b : unify k2 (.const (.str "ucan:*")) (Val.str cd.cwith) = some k2 :=
    unify_const_eq (by rw [hwithd])
  have u4a : unify k2 (.var 0) (Val.del d.cid) = some k2 := unify_var_of_bound rfl
  have u4b : unify k2 (.const (.str X)) (Val.str d.audience) = some k2 :=
    unify_const_eq (by rw [haud])
  have u5b : unify k2 (.var 1) (Val.str d.issuer) = some k3 := rfl
  have u6a : unify k3 (.var 0) (Val.del d.cid) = some k3 := unify_var_of_bound rfl
  have u6b : unify k3 (.var 4) (expVal d.expiration) = some k4 := rfl
  have u7a : unify k4 (.var 0) (Val.del d.cid) = some k4 := unify_var_of_bound rfl
  have u7b : unify k4 (.var 2) (Val.del p.cid) = some k5 := rfl
  have u8a : unify k5 (.var 6) (Val.cap p.cid jp) = some k6 := rfl
  have u8b : unify k6 (.const (.str A)) (Val.str cp.can) = some k6 :=
    unify_const_eq (by rw [hcanp])
  have u9b : unify k6 (.const (.str S)) (Val.str cp.cwith) = some k6 :=
    unify_const_eq (by rw [hwithp])
  have u10a : unify k6 (.var 2) (Val.del p.cid) = some k6 := unify_var_of_bound rfl
  have u10b : unify k6 (.var 6) (Val.cap p.cid jp) = some k6 := unify_var_of_bound rfl
  have u11b : unify k6 (.var 1) (Val.str p.audience) = some k6 := by
    apply unify_var_of_bound
    show bfind k6 1 = some (Val.str p.audience)
    rw [hpaud]
    rfl
  have u12b : unify k6 (.var 5) (Val.str p.issuer) = some k7 := rfl
  have u13a : unify k7 (.var 2) (Val.del p.cid) = some k7 := unify_var_of_bound rfl
  have u13b : unify k7 (.var 7) (expVal p.expiration) = some k8 := rfl
  refine ⟨k8, ?_, rfl⟩
  rw [implicitM]
  refine @and_complete _ _ _ _ k4 _ ?_ ?_
  · rw [forwards]
    exact and_complete (fact_complete _ (capability_mem_index hd hjd) rfl u1a u1b)
      (and_complete (fact_complete _ (capCan_mem_index hd hjd) rfl u2a u2b)
        (and_complete (fact_complete _ (capWith_mem_index hd hjd) rfl u2a u3b)
          (and_complete (fact_complete _ (audience_mem_index hd) rfl u4a u4b)
            (and_complete (fact_complete _ (issuer_mem_index hd) rfl u4a u5b)
              (and_complete (fact_complete _ (expiration_mem_index hd) rfl u6a u6b)
                (gte_complete rfl rfl hexp))))))
  · apply mem_eval_or.mpr
    right
    refine @and_complete _ _ _ _ k5 _ ?_ ?_
    · rw [hasProof]
      exact fact_complete _ (proof_mem_index hd hplink) rfl u7a u7b
    · rw [explicitM, capabilityMatch, delegationMatch]
      exact and_complete (and_complete
          (fact_complete _ (capCan_mem_index hp hjp) rfl u8a u8b)
          (fact_complete _ (capWith_mem_index hp hjp) rfl u10b u9b))
        (and_complete (fact_complete _ (capability_mem_index hp hjp) rfl u10a u10b)
          (and_complete (fact_complete _ (audience_mem_index hp) rfl u10a u11b)
            (and_complete (fact_complete _ (issuer_mem_index hp) rfl u10a u12b)
              (and_complete (fact_complete _ (expiration_mem_index hp) rfl u13a u13b)
                (gte_complete rfl rfl hexpp)))))


/-- C2: characterization of the implicit (`ucan:*`) matcher.  With
audience `X`, subject `S`, ability `A` and time `t` selected, a
delegation `d` of the set is matched iff its audience is `X`, it is
unexpired at `t`, it carries a capability for `A` on resource `ucan:*`,
and either its issuer is `S` or it links an unexpired proof in the set
that explicitly delegates `A` on resource `S` to `d`'s issuer.
Consequently the recursion is exactly one level deep: when `S` is not
`ucan:*`, a delegation not issued by `S` all of whose linked proofs are
themselves `ucan:*`-only delegations is never matched, even when the
chain would resolve at depth two. -/
theorem claim2_implicit_match (ds : List Delegation) (d : Delegation)
    (X S A : String) (t : Int) (huniq : UniqueCids ds) (hd : d ∈ ds) :
    ((∃ b' ∈ evalClause (buildIndex ds)
        (implicitM (.var 0) (.const (.str X)) (.var 1) (.const (.str S))
          (.const (.str A)) (.const (.int t)) 2) [],
        bfind b' 0 = some (.del d.cid)) ↔
      (d.audience = X ∧ unexpired d t = true ∧
        (∃ (j : Nat) (c : Capability), d.capabilities[j]? = some c ∧
          c.can = A ∧ c.cwith = "ucan:*") ∧
        (d.issuer = S ∨ ∃ p ∈ ds, p.cid ∈ d.proofs ∧ p.audience = d.issuer ∧
          unexpired p t = true ∧ ∃ (j : Nat) (c : Capability),
            p.capabilities[j]? = some c ∧ c.can = A ∧ c.cwith = S))) ∧
    (S ≠ "ucan:*" → d.issuer ≠ S →
      (∀ p ∈ ds, p.cid ∈ d.proofs → ∀ c ∈ p.capabilities, c.cwith = "ucan:*") →
      ¬∃ b' ∈ evalClause (buildIndex ds)
        (implicitM (.var 0) (.const (.str X)) (.var 1) (.const (.str S))
          (.const (.str A)) (.const (.int t)) 2) [],
        bfind b' 0 = some (.del d.cid)) := by
  have hiff : (∃ b' ∈ evalClause (buildIndex ds)
      (implicitM (.var 0) (.const (.str X)) (.var 1) (.const (.str S))
        (.const (.str A)) (.const (.int t)) 2) [],
      bfind b' 0 = some (.del d.cid)) ↔
    (d.audience = X ∧ unexpired d t = true ∧
      (∃ (j : Nat) (c : Capability), d.capabilities[j]? = some c ∧
        c.can = A ∧ c.cwith = "ucan:*") ∧
      (d.issuer = S ∨ ∃ p ∈ ds, p.cid ∈ d.proofs ∧ p.audience = d.issuer ∧
        unexpired p t = true ∧ ∃ (j : Nat) (c : Capability),
          p.capabilities[j]? = some c ∧ c.can = A ∧ c.cwith = S)) := by
    constructor
    · rintro ⟨b', hb', h0⟩
      obtain ⟨d2, hd2, ⟨j, c, hj, hwith, rcan⟩, rdT, raud, riss, hexp, hsub⟩ :=
        implicit_sound huniq hb'
      have rdT' : bfind b' 0 = some (Val.del d2.cid) := rdT
      have hde : d2 = d :=
        uniq_cid huniq hd2 hd (val_del_inj (Option.some.inj (rdT'.symm.trans h0)))
      rw [hde] at hj raud riss hexp hsub
      have raud' : (some (Val.str X) : Option Val) = some (.str d.audience) := raud
      have rcan' : (some (Val.str A) : Option Val) = some (.str c.can) := rcan
      refine ⟨(val_str_inj (Option.some.inj raud')).symm, hexp,
        ⟨j, c, hj, (val_str_inj (Option.some.inj rcan')).symm, hwith⟩, ?_⟩
      rcases hsub with hissue | ⟨p, hp, hpin, hpaud, jp, cp, hjp, rcanp, rsubjp, hexpp⟩
      · have hissue' : (some (Val.str S) : Option Val) = some (.str d.issuer) := hissue
        exact Or.inl (val_str_inj (Option.some.inj hissue')).symm
      · have rcanp' : (some (Val.str A) : Option Val) = some (.str cp.can) := rcanp
        have rsubjp' : (some (Val.str S) : Option Val) = some (.str cp.cwith) := rsubjp
        exact Or.inr ⟨p, hp, hpin, hpaud, hexpp, jp, cp, hjp,
          (val_str_inj (Option.some.inj rcanp')).symm,
          (val_str_inj (Option.some.inj rsubjp')).symm⟩
    · rintro ⟨haud, hexp, ⟨j, c, hj, hcan, hwith⟩, hsub⟩
      rcases hsub with hiss | ⟨p, hp, hpin, hpaud, hexpp, jp, cp, hjp, hcanp, hwithp⟩
      · exact implicitM_accepts_issuer hd hj hcan hwith haud hiss hexp
      · exact implicitM_accepts_proof hd hp hpin hj hcan hwith haud hpaud hjp
          hcanp hwithp hexp hexpp
  refine ⟨hiff, ?_⟩
  intro hS hIss hAll hex
  obtain ⟨_, _, _, hsub⟩ := hiff.mp hex
  rcases hsub with h | ⟨p, hp, hpin, _, _, jp, cp, hjp, _, hwithp⟩
  · exact hIss h
  · have hmem : cp ∈ p.capabilities := by
      obtain ⟨hlt, he⟩ := List.getElem?_eq_some_iff.mp hjp
      exact he ▸ List.getElem_mem hlt
    exact hS (hwithp ▸ hAll p hp hpin cp hmem)

/-- C2 witness: the characterization applied to a mailto account's
`ucan:*` login delegation, in the issuer direction. -/
theorem claim2_witness :
    ∃ b' ∈ evalClause (buildIndex [loginDelegation])
      (implicitM (.var 0) (.const (.str "did:key:agent")) (.var 1)
        (.const (.str "did:mailto:example.com:alice")) (.const (.str "*"))
        (.const (.int 0)) 2) [],
      bfind b' 0 = some (.del loginDelegation.cid) :=
  (claim2_implicit_match [loginDelegation] loginDelegation "did:key:agent"
      "did:mailto:example.com:alice" "*" 0 (by decide) (by decide)).1.mpr
    ⟨rfl, by decide, ⟨0, ⟨"*", "ucan:*", []⟩, rfl, rfl, rfl⟩, Or.inl rfl⟩

/-! ## Claim C4 -/

theorem singleton_getElem {α : Type} {a x : α} {j : Nat} (h : [a][j]? = some x) : x = a := by
  cases j with
  | zero =>
    simp only [List.getElem?_cons_zero] at h
    exact (Option.some.inj h).symm
  | succ k =>
    simp only [List.getElem?_cons_succ, List.getElem?_nil] at h
    exact Option.noConfusion h

theorem dedup_eq_singleton {α : Type} [DecidableEq α] {l : List α} {a : α}
    (hne : a ∈ l) (hall : ∀ x ∈ l, x = a) : l.dedup = [a] := by
  have hnd := l.nodup_dedup
  have hmem : a ∈ l.dedup := List.mem_dedup.mpr hne
  have hall' : ∀ x ∈ l.dedup, x = a := fun x hx => hall x (List.mem_dedup.mp hx)
  cases hd : l.dedup with
  | nil =>
    rw [hd] at hmem
    exact absurd hmem (List.not_mem_nil a)
  | cons h tl =>
    rw [hd] at hall' hnd
    have hha : h = a := hall' h (List.mem_cons_self h tl)
    subst hha
    cases tl with
    | nil => rfl
    | cons h2 t2 =>
      have h2a : h2 = h := (hall' h2 (by simp)).trans (hall' h (by simp)).symm
      rw [List.nodup_cons] at hnd
      have : h ∈ h2 :: t2 := by
        rw [h2a]
        exact List.mem_cons_self h t2
      exact absurd this hnd.1

theorem toAuth_two_groups {bf : Bindings} {X S A B : String} {cidA cidB : Nat}
    (h0 : bfind bf 0 = some (.str S)) (h1 : bfind bf 1 = some (.str X))
    (hp0 : bfind bf 4 = some (.del cidA)) (ha0 : bfind bf 5 = none)
    (hp1 : bfind bf 18 = some (.del cidB)) (ha1 : bfind bf 19 = none) :
    toAuth [mkGroup 0 (some A), mkGroup 1 (some B)] bf =
      ⟨X, S, [A, B], [cidA, cidB]⟩ := by
  simp [toAuth, mkGroup, canOf, groupProofs, h0, h1, hp0, ha0, hp1, ha1]

/-- C4 (amended): for a set holding exactly the two direct grants — with
distinct cids, the same audience `X` and subject `S`, one capability
each for abilities `A` and `B` with empty caveats, non-mailto issuers,
both unexpired, `S` not `ucan:*`, and neither ability's glob matching
the other — the query requesting both abilities returns exactly the one
merged Authorization record citing both proofs, not two records.  (When
one ability's glob matches the other, the builder's per-ability groups
can each match several proofs and more than one record comes back: see
the counterexample.) -/
theorem claim4_single_record (dA dB : Delegation) (cA cB : Capability)
    (X S A B : String) (t : Int)
    (hcidne : dA.cid ≠ dB.cid)
    (hcapA : dA.capabilities = [cA]) (hcapB : dB.capabilities = [cB])
    (hcanA : cA.can = A) (hcanB : cB.can = B)
    (hwithA : cA.cwith = S) (hwithB : cB.cwith = S)
    (hnbA : cA.nb = []) (hnbB : cB.nb = [])
    (haudA : dA.audience = X) (haudB : dB.audience = X)
    (hexpA : unexpired dA t = true) (hexpB : unexpired dB t = true)
    (hmailA : mailtoIssuer dA = false) (hmailB : mailtoIssuer dB = false)
    (hS : S ≠ "ucan:*")
    (hBA : globStr B A = false) (hAB : globStr A B = false) :
    find [dA, dB] ⟨.exact X, [A, B], none, t⟩ =
      [⟨X, S, [A, B], [dA.cid, dB.cid]⟩] := by
  have huniq : UniqueCids [dA, dB] := by
    intro x hx y hy hxy
    rcases List.mem_cons.mp hx with rfl | hx2
    · rcases List.mem_cons.mp hy with rfl | hy2
      · rfl
      · rcases List.mem_cons.mp hy2 with rfl | hy3
        · exact absurd hxy hcidne
        · exact absurd hy3 (List.not_mem_nil _)
    · rcases List.mem_cons.mp hx2 with rfl | hx3
      · rcases List.mem_cons.mp hy with rfl | hy2
        · exact absurd hxy.symm hcidne
        · rcases List.mem_cons.mp hy2 with rfl | hy3
          · rfl
          · exact absurd hy3 (List.not_mem_nil _)
      · exact absurd hx3 (List.not_mem_nil _)
  -- membership: the intended binding satisfies every clause
  have hneedA : ∀ s, (some A : Option String) = some s → globStr cA.can s = true := by
    intro s hs
    have hsa : A = s := by injection hs
    rw [← hsa, hcanA]
    exact globStr_refl A
  have hneedB : ∀ s, (some B : Option String) = some s → globStr cB.can s = true := by
    intro s hs
    have hsb : B = s := by injection hs
    rw [← hsb, hcanB]
    exact globStr_refl B
  obtain ⟨b1, hb1, hv0, hv1, hvcan, hvP, hvatt, hkeep⟩ :=
    @groupClause_complete [dA, dB] dA 0 cA t 0 (some A) []
      (by simp) (by rw [hcapA]; simp) hexpA hmailA hneedA (Or.inl rfl) (Or.inl rfl)
      (fun x _ _ => rfl)
  have hfree1 : ∀ x, 2 + 14 * 1 ≤ x → x < 2 + 14 * 1 + 14 → bfind b1 x = none := by
    intro x hx1 hx2
    rw [hkeep x (by omega) (by omega) (by omega) (by omega) (by omega) (by omega) (by omega)]
    rfl
  obtain ⟨b2, hb2, hw0, hw1, hwcan, hwP, hwatt, hkeep2⟩ :=
    @groupClause_complete [dA, dB] dB 0 cB t 1 (some B) b1
      (by simp) (by rw [hcapB]; simp) hexpB hmailB hneedB
      (Or.inr (by rw [hv0, hwithA, hwithB])) (Or.inr (by rw [hv1, haudA, haudB])) hfree1
  have hP0 : bfind b2 (2 + 14 * 0 + 2) = some (.del dA.cid) := by
    rw [hkeep2 _ (by omega) (by omega) (by omega) (by omega) (by omega) (by omega) (by omega)]
    exact hvP
  have hatt0 : bfind b2 (2 + 14 * 0 + 3) = none := by
    rw [hkeep2 _ (by omega) (by omega) (by omega) (by omega) (by omega) (by omega) (by omega)]
    rw [hvatt]
    rfl
  have hatt1 : bfind b2 (2 + 14 * 1 + 3) = none := by
    rw [hwatt]
    rw [hkeep _ (by omega) (by omega) (by omega) (by omega) (by omega) (by omega) (by omega)]
    rfl
  have ht1 : b2 ∈ evalClause (buildIndex [dA, dB])
      (textMatch (.var 0) ((none : Option TextConstraint).getD (.like "*"))) b2 := by
    show b2 ∈ evalClause (buildIndex [dA, dB]) (.glob (.var 0) (.const (.str "*"))) b2
    exact glob_complete hw0 rfl (globStr_star cB.cwith)
  have ht2 : b2 ∈ evalClause (buildIndex [dA, dB]) (textMatch (.var 1) (.exact X)) b2 := by
    show b2 ∈ evalClause (buildIndex [dA, dB]) (.is (.var 1) (.str X)) b2
    apply mem_eval_is.mpr
    apply unify_var_of_bound
    rw [hw1, haudB]
  have hwhere : b2 ∈ evalWhere (buildIndex [dA, dB])
      (whereClauses ⟨.exact X, [A, B], none, t⟩ (mkGroups [A, B])) [] := by
    show b2 ∈ evalWhere (buildIndex [dA, dB])
      [groupClause t (mkGroup 0 (some A)), groupClause t (mkGroup 1 (some B)),
       textMatch (.var 0) ((none : Option TextConstraint).getD (.like "*")),
       textMatch (.var 1) (.exact X)] []
    exact mem_evalWhere_cons.mpr ⟨b1, hb1,
      mem_evalWhere_cons.mpr ⟨b2, hb2,
        mem_evalWhere_cons.mpr ⟨b2, ht1,
          mem_evalWhere_cons.mpr ⟨b2, ht2, mem_evalWhere_nil.mpr rfl⟩⟩⟩⟩
  have htoAuth : toAuth (mkGroups [A, B]) b2 = ⟨X, S, [A, B], [dA.cid, dB.cid]⟩ := by
    show toAuth [mkGroup 0 (some A), mkGroup 1 (some B)] b2 = _
    exact toAuth_two_groups (by rw [hw0, hwithB]) (by rw [hw1, haudB]) hP0 hatt0 hwP hatt1
  have hmem : (⟨X, S, [A, B], [dA.cid, dB.cid]⟩ : Authorization) ∈
      (evalWhere (buildIndex [dA, dB])
        (whereClauses ⟨.exact X, [A, B], none, t⟩ (mkGroups [A, B])) []).map
        (toAuth (mkGroups [A, B])) :=
    List.mem_map.mpr ⟨b2, hwhere, htoAuth⟩
  -- uniqueness: every satisfying binding projects to the same record
  have hallR : ∀ x ∈ (evalWhere (buildIndex [dA, dB])
      (whereClauses ⟨.exact X, [A, B], none, t⟩ (mkGroups [A, B])) []).map
        (toAuth (mkGroups [A, B])), x = ⟨X, S, [A, B], [dA.cid, dB.cid]⟩ := by
    intro x hx
    rw [List.mem_map] at hx
    obtain ⟨bf, hbf, rfl⟩ := hx
    rw [whereClauses] at hbf
    obtain ⟨bm, hbm, htext⟩ := mem_evalWhere_append.mp hbf
    rw [mkGroups_eq_aux] at hbm
    have hgall := evalWhere_groups_sound huniq (needsOf [A, B]) 0 [] bm hbm
      (fun x _ => rfl)
    have hgallf : ∀ g ∈ mkGroupsAux 0 (needsOf [A, B]), groupOut [dA, dB] t g bf := by
      intro g hg
      refine groupOut_mono (hgall g hg) (evalWhere_ext htext) ?_
      apply evalWhere_untouched htext
      intro cla hcla hmem2
      obtain ⟨k, n', hk, hgk⟩ := mem_mkGroupsAux hg
      have hattid : g.attestation = 2 + 14 * (0 + k) + 3 := by rw [hgk]; rfl
      rcases List.mem_cons.mp hcla with rfl | hcla'
      · have h0 := mem_clauseVars_textMatch hmem2
        omega
      · rcases List.mem_cons.mp hcla' with rfl | hcla''
        · have h0 := mem_clauseVars_textMatch hmem2
          omega
        · exact absurd hcla'' (List.not_mem_nil _)
    have hg0 : groupOut [dA, dB] t (mkGroup 0 (some A)) bf := by
      apply hgallf
      show mkGroup 0 (some A) ∈ [mkGroup 0 (some A), mkGroup 1 (some B)]
      simp
    have hg1 : groupOut [dA, dB] t (mkGroup 1 (some B)) bf := by
      apply hgallf
      show mkGroup 1 (some B) ∈ [mkGroup 0 (some A), mkGroup 1 (some B)]
      simp
    -- group 0 is pinned to dA by the need glob
    obtain ⟨pd0, hpd0, hPf0, hIs0, hAud0, hExp0, ⟨j0, cc0, hj0, hCan0, hGlob0, hSub0⟩,
      hAtt0⟩ := hg0
    have hpin0 : pd0 = dA ∧ cc0 = cA := by
      rcases List.mem_cons.mp hpd0 with rfl | hpd0'
      · rw [hcapA] at hj0
        exact ⟨rfl, singleton_getElem hj0⟩
      · rcases List.mem_cons.mp hpd0' with rfl | h3
        · exfalso
          rw [hcapB] at hj0
          have hcc : cc0 = cB := singleton_getElem hj0
          have hgl := hGlob0 A rfl
          rw [hcc, hcanB] at hgl
          rw [hgl] at hBA
          exact Bool.noConfusion hBA
        · exact absurd h3 (List.not_mem_nil _)
    obtain ⟨hpd0e, hcc0e⟩ := hpin0
    rw [hpd0e] at hPf0 hAud0
    rw [hcc0e] at hSub0
    -- group 1 is pinned to dB by the need glob
    obtain ⟨pd1, hpd1, hPf1, hIs1, hAud1, hExp1, ⟨j1, cc1, hj1, hCan1, hGlob1, hSub1⟩,
      hAtt1b⟩ := hg1
    have hpin1 : pd1 = dB ∧ cc1 = cB := by
      rcases List.mem_cons.mp hpd1 with rfl | hpd1'
      · exfalso
        rw [hcapA] at hj1
        have hcc : cc1 = cA := singleton_getElem hj1
        have hgl := hGlob1 B rfl
        rw [hcc, hcanA] at hgl
        rw [hgl] at hAB
        exact Bool.noConfusion hAB
      · rcases List.mem_cons.mp hpd1' with rfl | h3
        · rw [hcapB] at hj1
          exact ⟨rfl, singleton_getElem hj1⟩
        · exact absurd h3 (List.not_mem_nil _)
    obtain ⟨hpd1e, hcc1e⟩ := hpin1
    rw [hpd1e] at hPf1
    -- the subject variable carries S
    have hsubS : bfind bf 0 = some (.str S) := by
      rcases hSub0 with hs | hs
      · rw [hwithA] at hs
        exact hs
      · rw [hwithA] at hs
        exact absurd hs hS
    -- attestation variables are unbound
    have hano0 : bfind bf (mkGroup 0 (some A)).attestation = none := by
      rcases hAtt0 with ⟨hn, -⟩ | ⟨ad, had, -, -, -, j2, c2, hj2, -, hnb2⟩
      · exact hn
      · exfalso
        rcases List.mem_cons.mp had with rfl | had'
        · rw [hcapA] at hj2
          have hc2 : c2 = cA := singleton_getElem hj2
          rw [hc2, hnbA] at hnb2
          exact absurd hnb2 (List.not_mem_nil _)
        · rcases List.mem_cons.mp had' with rfl | h3
          · rw [hcapB] at hj2
            have hc2 : c2 = cB := singleton_getElem hj2
            rw [hc2, hnbB] at hnb2
            exact absurd hnb2 (List.not_mem_nil _)
          · exact absurd h3 (List.not_mem_nil _)
    have hano1 : bfind bf (mkGroup 1 (some B)).attestation = none := by
      rcases hAtt1b with ⟨hn, -⟩ | ⟨ad, had, -, -, -, j2, c2, hj2, -, hnb2⟩
      · exact hn
      · exfalso
        rcases List.mem_cons.mp had with rfl | had'
        · rw [hcapA] at hj2
          have hc2 : c2 = cA := singleton_getElem hj2
          rw [hc2, hnbA] at hnb2
          exact absurd hnb2 (List.not_mem_nil _)
        · rcases List.mem_cons.mp had' with rfl | h3
          · rw [hcapB] at hj2
            have hc2 : c2 = cB := singleton_getElem hj2
            rw [hc2, hnbB] at hnb2
            exact absurd hnb2 (List.not_mem_nil _)
          · exact absurd h3 (List.not_mem_nil _)
    show toAuth (mkGroups [A, B]) bf = _
    show toAuth [mkGroup 0 (some A), mkGroup 1 (some B)] bf = _
    refine toAuth_two_groups hsubS ?_ hPf0 hano0 hPf1 hano1
    rw [hAud0, haudA]
  show ((evalWhere (buildIndex [dA, dB])
      (whereClauses ⟨.exact X, [A, B], none, t⟩ (mkGroups [A, B])) []).map
      (toAuth (mkGroups [A, B]))).dedup = _
  exact dedup_eq_singleton hmem hallR

/-- C4 (counterexample to the unamended claim): `store/*` and
`store/add` are distinct unexpired grants of different abilities to the
same audience on the same subject, yet the query requesting both
abilities returns two Authorization records for that (audience, subject)
pair — the `store/*` proof also satisfies the `store/add` group's glob,
so the bindings do not merge. -/
theorem claim4_counterexample :
    starGrant.cid ≠ plainGrant.cid ∧
    unexpired starGrant 0 = true ∧ unexpired plainGrant 0 = true ∧
    starGrant.audience = plainGrant.audience ∧
    (∃ cS ∈ starGrant.capabilities, ∃ cP ∈ plainGrant.capabilities,
      cS.cwith = cP.cwith ∧ cS.can ≠ cP.can) ∧
    ∃ a1 ∈ find [starGrant, plainGrant]
        ⟨.exact "did:key:agent", ["store/*", "store/add"], none, 0⟩,
      ∃ a2 ∈ find [starGrant, plainGrant]
          ⟨.exact "did:key:agent", ["store/*", "store/add"], none, 0⟩,
        a1 ≠ a2 ∧ a1.authority = a2.authority ∧ a1.subject = a2.subject := by
  decide

/-- C4 witness: the merged-record theorem applied to the concrete
`store/add` and `store/remove` grants. -/
theorem claim4_witness :
    find [plainGrant, removeGrant]
        ⟨.exact "did:key:agent", ["store/add", "store/remove"], none, 0⟩ =
      [⟨"did:key:agent", "did:key:space", ["store/add", "store/remove"], [1, 2]⟩] :=
  claim4_single_record plainGrant removeGrant
    ⟨"store/add", "did:key:space", []⟩ ⟨"store/remove", "did:key:space", []⟩
    "did:key:agent" "did:key:space" "store/add" "store/remove" 0
    (by decide) rfl rfl rfl rfl rfl rfl rfl rfl rfl rfl
    (by decide) (by decide) (by decide) (by decide) (by decide)
    (by decide) (by decide)
